import Mathlib

/-!
Verification of the batch-orchestration core of the bodegón agent repository.

The development shallowly embeds the retry/circuit-breaker layer
(`src/utils/retry.ts`, given as `src/unnamed/part_001`) and the batch
executor / request processor (`src/agents/bodegon-creator.ts`, concatenated
into `src/src/agents/types.ts`).  Machine numbers that the source treats as
JS numbers are modelled as `Nat` (attempt counters, counts, timestamps) or
`ℚ` (delays, backoff multipliers); `Math.random()` values become explicit
parameters; async control flow becomes explicit state passing with the
awaited suspension points linearized in program order.
-/

namespace Bodegon

/-! ## String helpers

JS `String.prototype.includes` is a case-sensitive substring test; a regex
such as `/timeout/i` with no anchors is a case-insensitive substring test.
We model strings by their character lists.  `lowerChar` implements ASCII
lowercasing (what the `i` flag performs on these ASCII-only patterns).
-/

/-- ASCII lowercasing of one character. -/
def lowerChar (c : Char) : Char :=
  if 'A' ≤ c && c ≤ 'Z' then Char.ofNat (c.toNat + 32) else c

/-- The character list of `s`, ASCII-lowercased. -/
def lowerStr (s : String) : List Char := s.data.map lowerChar

/-- Substring test: `isInfixB p l` is true iff `p` occurs as a contiguous sublist of `l`. -/
def isInfixB [DecidableEq α] : List α → List α → Bool
  | p, [] => p.isEmpty
  | p, a :: as => p.isPrefixOf (a :: as) || isInfixB p as

/-- Case-sensitive substring test: JS `s.includes(pat)`. -/
def containsSub (pat s : String) : Bool := isInfixB pat.data s.data

/-- Case-insensitive substring test: an unanchored `/pat/i` regex test. -/
def containsCI (pat s : String) : Bool := isInfixB (lowerStr pat) (lowerStr s)

/-! ## Retry layer (`retry.ts`)

`RetryConfig` mirrors `RetryConfigSchema`: positive `maxAttempts`, positive
delays, positive multiplier, jitter flag.  Delays are rationals since the
source multiplies by an arbitrary positive `backoffMultiplier` and by
`Math.random()` fractions.
-/

structure RetryConfig where
  maxAttempts : Nat
  baseDelay : ℚ
  maxDelay : ℚ
  backoffMultiplier : ℚ
  jitter : Bool
deriving DecidableEq, Repr

/-- The retryable-error patterns of `ExponentialBackoffRetryImpl.isRetryableError`:
each is tested as an unanchored case-insensitive regex against the message. -/
def expRetryablePatterns : List String :=
  ["timeout", "connection", "network", "temporary", "rate limit",
   "too many requests", "ECONNRESET", "ENOTFOUND", "ETIMEDOUT",
   "502", "503", "504"]

/-- Model of `ExponentialBackoffRetryImpl.isRetryableError`. -/
def expIsRetryable (msg : String) : Bool :=
  expRetryablePatterns.any (fun p => containsCI p msg)

/-- Model of `FixedDelayRetryImpl.isRetryableError`: retryable unless the message
contains one of three fatal markers (case-sensitive `includes`). -/
def fixedIsRetryable (msg : String) : Bool :=
  !(containsSub "Authentication failed" msg) &&
  !(containsSub "Permission denied" msg) &&
  !(containsSub "Invalid configuration" msg)

/-- The two retry strategies of `retry.ts`, each holding its `RetryConfig`. -/
inductive RetryStrategy
  | exponentialBackoff (config : RetryConfig)
  | fixedDelay (config : RetryConfig)
deriving DecidableEq, Repr

/-- The config carried by a strategy. -/
def RetryStrategy.config : RetryStrategy → RetryConfig
  | .exponentialBackoff cfg => cfg
  | .fixedDelay cfg => cfg

/-- The error classifier used by a strategy's `isRetryableError`. -/
def RetryStrategy.isRetryable : RetryStrategy → String → Bool
  | .exponentialBackoff _, msg => expIsRetryable msg
  | .fixedDelay _, msg => fixedIsRetryable msg

/-- Model of `shouldRetry(attempt, error)` of either strategy implementation:
`attempt < this.config.maxAttempts && this.isRetryableError(error)`. -/
def shouldRetry (strat : RetryStrategy) (attempt : Nat) (msg : String) : Bool :=
  decide (attempt < strat.config.maxAttempts) && strat.isRetryable msg

/-- Model of `ExponentialBackoffRetryImpl.getDelay`, with the `Math.random()` draw an
explicit parameter `r`: `capped = min(baseDelay * multiplier^(attempt-1),
maxDelay)`; with jitter the result is `capped + capped * 0.1 * r`. -/
def expGetDelay (cfg : RetryConfig) (attempt : Nat) (r : ℚ) : ℚ :=
  let baseDelay := cfg.baseDelay * cfg.backoffMultiplier ^ (attempt - 1)
  let cappedDelay := min baseDelay cfg.maxDelay
  if cfg.jitter then cappedDelay + cappedDelay * (1 / 10) * r else cappedDelay

/-- Model of `getDelay` of either strategy (`FixedDelayRetryImpl.getDelay` ignores
the attempt and the random draw and returns `baseDelay`). -/
def getDelay (strat : RetryStrategy) (attempt : Nat) (r : ℚ) : ℚ :=
  match strat with
  | .exponentialBackoff cfg => expGetDelay cfg attempt r
  | .fixedDelay cfg => cfg.baseDelay

/-- Outcome of `retryWithStrategy`; each constructor records how many times
the operation was invoked.  `rawFailure` models `throw lastError` (the plain
underlying error); `exhausted` models `throw new RetryExhaustedError(...)`. -/
inductive RetryOutcome
  | success (attempt : Nat)
  | rawFailure (msg : String) (attempt : Nat)
  | exhausted (attempts : Nat) (lastMsg : String)
deriving DecidableEq, Repr

/-- Whether the outcome is the distinguished `RetryExhaustedError`. -/
def RetryOutcome.isExhausted : RetryOutcome → Bool
  | .exhausted _ _ => true
  | _ => false

/-- The loop of `retryWithStrategy`.  Crucially, the source iterates
`for (attempt = 1; attempt <= strategyConfig.maxAttempts; ...)` over the
module-global `strategyConfig`, not over the strategy's own config; the
global bound is the parameter `globalMax`.  The operation is modelled as
`op : Nat → Option String` (`none` = resolves, `some msg` = rejects with
that message on the given attempt).  `fuel` counts the remaining loop
iterations (`globalMax + 1 - attempt`); when it runs out the distinguished
`RetryExhaustedError` is raised with the global attempt count. -/
def retryLoop (strat : RetryStrategy) (op : Nat → Option String)
    (globalMax : Nat) : Nat → Nat → String → RetryOutcome
  | 0, _, lastMsg => .exhausted globalMax lastMsg
  | fuel + 1, attempt, _ =>
    match op attempt with
    | none => .success attempt
    | some e =>
      if shouldRetry strat attempt e then
        retryLoop strat op globalMax fuel (attempt + 1) e
      else .rawFailure e attempt

/-- Model of `retryWithStrategy(operation, strategy)` under global config bound
`globalMax` (the module default `strategyConfig.maxAttempts` is 3). -/
def retryWithStrategy (strat : RetryStrategy) (op : Nat → Option String)
    (globalMax : Nat) : RetryOutcome :=
  retryLoop strat op globalMax globalMax 1 ""

/-! ## Circuit breaker (`retry.ts`, class `CircuitBreaker`)

Timestamps are integers (JS epoch milliseconds); subtraction is integer
subtraction as in `Date.now() - this.lastFailureTime`.
-/

/-- The three circuit-breaker states (source: `'CLOSED' | 'OPEN' |
'HALF_OPEN'`; `open` is a Lean keyword, hence `opened`). -/
inductive CBState
  | closed
  | opened
  | halfOpen
deriving DecidableEq, Repr

/-- A `CircuitBreaker` instance: its constructor parameters and its three
private mutable fields. -/
structure CircuitBreaker where
  failureThreshold : Nat
  recoveryTimeout : Int
  failureCount : Nat
  lastFailureTime : Int
  state : CBState
deriving DecidableEq, Repr

/-- A freshly constructed breaker (`failureCount = 0`, `lastFailureTime = 0`,
state CLOSED). -/
def CircuitBreaker.mk0 (threshold : Nat) (timeout : Int) : CircuitBreaker :=
  { failureThreshold := threshold, recoveryTimeout := timeout,
    failureCount := 0, lastFailureTime := 0, state := .closed }

/-- Model of `CircuitBreaker.onSuccess`: reset the failure counter, close. -/
def CircuitBreaker.onSuccess (cb : CircuitBreaker) : CircuitBreaker :=
  { cb with failureCount := 0, state := .closed }

/-- Model of `CircuitBreaker.onFailure` at time `now`: count the failure, refresh the
failure timestamp, open once the threshold is reached. -/
def CircuitBreaker.onFailure (cb : CircuitBreaker) (now : Int) : CircuitBreaker :=
  let cb1 := { cb with failureCount := cb.failureCount + 1, lastFailureTime := now }
  if cb1.failureThreshold ≤ cb1.failureCount then { cb1 with state := .opened } else cb1

/-- Observable outcome of one `execute` call. -/
inductive CBOutcome
  | circuitOpenError
  | opSuccess
  | opFailure
deriving DecidableEq, Repr

/-- Result record for one `execute` call: its outcome, how many times the
wrapped operation was invoked, the breaker state at the moment of the
invocation (if any), and the breaker after the call. -/
structure CBExec where
  outcome : CBOutcome
  calls : Nat
  stateAtInvocation : Option CBState
  final : CircuitBreaker
deriving DecidableEq, Repr

/-- Model of `CircuitBreaker.execute(operation)` at time `now`; `opFails` tells
whether the single awaited invocation of the wrapped operation rejects. -/
def CircuitBreaker.execute (cb : CircuitBreaker) (now : Int) (opFails : Bool) : CBExec :=
  if cb.state = .opened ∧ now - cb.lastFailureTime < cb.recoveryTimeout then
    { outcome := .circuitOpenError, calls := 0, stateAtInvocation := none, final := cb }
  else
    let cb1 := if cb.state = .opened then { cb with state := .halfOpen } else cb
    if opFails then
      { outcome := .opFailure, calls := 1, stateAtInvocation := some cb1.state,
        final := cb1.onFailure now }
    else
      { outcome := .opSuccess, calls := 1, stateAtInvocation := some cb1.state,
        final := cb1.onSuccess }

/-! ## Workflow data model (`agents/types.ts`, `agents/bodegon-creator.ts`)

Captured-image and composition descriptors are opaque to the orchestration
core, which only aggregates their counts (`result.capturedImages.length`,
`result.compositions.length`); the model therefore carries the list lengths.
`Date` fields, irrelevant to every claim, are dropped.
-/

/-- Model of `WorkflowStep` (source literals `'setup' | 'scraping' | 'composition' |
'validation' | 'complete' | 'error'`). -/
inductive Step
  | setup
  | scraping
  | composition
  | validation
  | complete
  | error
deriving DecidableEq, Repr

/-- Status of a `ProcessingResult` (source `'success' | 'partial' | 'error'`;
`partial` is a Lean keyword, hence `partialStatus`). -/
inductive RStatus
  | success
  | partialStatus
  | error
deriving DecidableEq, Repr

/-- One entry of `WorkflowState.errors`; the request id is modelled by the
request's batch index (the source draws a fresh uuid). -/
structure ErrorEntry where
  step : String
  message : String
  requestId : Nat
deriving DecidableEq, Repr

/-- Model of `WorkflowState` (the module-global mutable aggregate). -/
structure WorkflowState where
  step : Step
  totalRequests : Nat
  completedRequests : Nat
  currentRequestIndex : Nat
  imagesCollected : Nat
  compositionsCreated : Nat
  errors : List ErrorEntry
  currentRequest : Option String
deriving DecidableEq, Repr

/-- Model of `ProcessingResult`, with the two artifact lists abstracted to their
lengths. -/
structure ProcessingResult where
  url : String
  status : RStatus
  capturedImages : Nat
  compositions : Nat
  errors : List String
deriving DecidableEq, Repr

/-- One message yielded by the Claude SDK `query` generator inside
`processRequest`; `raise` models the generator itself throwing while being
awaited. -/
inductive Msg
  | assistant (text : String)
  | other
  | raise (msg : String)
deriving DecidableEq, Repr

/-- Behaviour oracle for one `ProcessingRequest`: its url, the messages its
query produces, and the `Math.random()` draw driving
`simulateCapturedImages` (`count = floor(random*3) + 1`, modelled as
`rand % 3 + 1`). -/
structure ReqBehavior where
  url : String
  messages : List Msg
  rand : Nat
deriving DecidableEq, Repr

/-- Model of `simulateCapturedImages`: it produces `rand % 3 + 1` images. -/
def simImages (rand : Nat) : Nat := rand % 3 + 1

/-- Model of `simulateCompositions`: it produces one composition unless no image was
captured. -/
def simComps (imgs : Nat) : Nat := if imgs = 0 then 0 else 1

/-- The response test of `processRequest`:
`response.includes('imagen capturada') || response.includes('composition creada')`. -/
def msgTriggers (t : String) : Bool :=
  containsSub "imagen capturada" t || containsSub "composition creada" t

/-- Where the module-global `isCancelled` flag is read. -/
inductive Site
  | seqLoop
  | parLoop
  | inRequest
deriving DecidableEq, Repr

/-- Linearized run state: the module-global `workflowState`, an index and log
of flag consultations, the batches yielded so far, and the history of values
taken by `workflowState.step` (initial value first). -/
structure AgentState where
  ws : WorkflowState
  consults : Nat
  trace : List Site
  emitted : List (List ProcessingResult)
  stepHist : List Step
deriving DecidableEq, Repr

/-- Model of `updateWorkflowState(updates)`: merge into the global state; the step
history records the step value after the merge. -/
def updateWorkflowState (s : AgentState) (f : WorkflowState → WorkflowState) : AgentState :=
  let ws := f s.ws
  { s with ws := ws, stepHist := s.stepHist ++ [ws.step] }

/-- Read `isCancelled` at consultation site `site`; the flag's value over
(linearized) time is the function `flag` of the consultation index, so a
cooperative `cancel()` call is a monotone `flag`. -/
def consultFlag (flag : Nat → Bool) (site : Site) (s : AgentState) : Bool × AgentState :=
  (flag s.consults, { s with consults := s.consults + 1, trace := s.trace ++ [site] })

/-- Emission (`yield`) of one result batch. -/
def emitBatch (batch : List ProcessingResult) (s : AgentState) : AgentState :=
  { s with emitted := s.emitted ++ [batch] }

/-- The `for await (const message of queryGenerator)` loop body of
`processRequest`: per yielded message the cancellation flag is consulted and,
if set, `'Procesamiento cancelado por el usuario'` is thrown; a matching
assistant response overwrites the captured/composed artifacts with the
simulated ones. -/
def procMessages (flag : Nat → Bool) (rb : ReqBehavior) :
    List Msg → Nat → Nat → AgentState → Except String (Nat × Nat) × AgentState
  | [], imgs, comps, s => (.ok (imgs, comps), s)
  | .raise e :: _, _, _, s => (.error e, s)
  | m :: rest, imgs, comps, s =>
    let (c, s1) := consultFlag flag .inRequest s
    if c then (.error "Procesamiento cancelado por el usuario", s1)
    else
      match m with
      | .assistant t =>
        if msgTriggers t then
          let ni := simImages rb.rand
          procMessages flag rb rest ni (simComps ni) s1
        else
          procMessages flag rb rest imgs comps s1
      | _ => procMessages flag rb rest imgs comps s1

/-- Model of `processRequest`: set step `scraping`, drain the query; on normal
completion set step `complete` and return a result whose status is
`hasErrors ? 'partial' : 'success'` — and `hasErrors` is never assigned, so
the status is always `success`; exceptions are rethrown. -/
def processRequest (flag : Nat → Bool) (rb : ReqBehavior) (s : AgentState) :
    Except String ProcessingResult × AgentState :=
  let s1 := updateWorkflowState s
    (fun ws => { ws with step := .scraping, currentRequest := some rb.url })
  match procMessages flag rb rb.messages 0 0 s1 with
  | (.error e, s2) => (.error e, s2)
  | (.ok (imgs, comps), s2) =>
    let s3 := updateWorkflowState s2 (fun ws => { ws with step := .complete })
    (.ok { url := rb.url, status := .success, capturedImages := imgs,
           compositions := comps, errors := [] }, s3)

/-- The error-status `ProcessingResult` built when `processRequest` throws
(the `catch` branch of `processSequential` and the `.catch` of
`processParallel` build the same record). -/
def mkErrorResult (url msg : String) : ProcessingResult :=
  { url := url, status := .error, capturedImages := 0, compositions := 0,
    errors := [msg] }

/-- Model of `processSequential`: per request, consult the flag (break if set), then
process; on success yield the one-element batch then add the result's counts;
on exception record an error entry, count the request as completed, and yield
an error result.  After the loop set step `complete`. -/
def processSequential (flag : Nat → Bool) :
    List ReqBehavior → Nat → AgentState → AgentState
  | [], _, s => updateWorkflowState s (fun ws => { ws with step := .complete })
  | rb :: rest, i, s =>
    let (c, s1) := consultFlag flag .seqLoop s
    if c then updateWorkflowState s1 (fun ws => { ws with step := .complete })
    else
      let s2 := updateWorkflowState s1
        (fun ws => { ws with step := .scraping, currentRequestIndex := i,
                             currentRequest := some rb.url })
      match processRequest flag rb s2 with
      | (.ok r, s3) =>
        let s4 := emitBatch [r] s3
        let s5 := updateWorkflowState s4 (fun ws =>
          { ws with completedRequests := ws.completedRequests + 1,
                    imagesCollected := ws.imagesCollected + r.capturedImages,
                    compositionsCreated := ws.compositionsCreated + r.compositions })
        processSequential flag rest (i + 1) s5
      | (.error e, s3) =>
        let s4 := updateWorkflowState s3 (fun ws =>
          { ws with completedRequests := ws.completedRequests + 1,
                    errors := ws.errors ++
                      [{ step := "scraping", message := e, requestId := i }] })
        let s5 := emitBatch [mkErrorResult rb.url e] s4
        processSequential flag rest (i + 1) s5

/-- The chunk partition of `processParallel`
(`for (i = 0; i < n; i += c) chunks.push(requests.slice(i, i + c))`),
written with explicit fuel (any fuel bounding the list length) to keep the
recursion structural. -/
def chunksOfAux (c : Nat) : Nat → List α → List (List α)
  | 0, _ => []
  | _ + 1, [] => []
  | fuel + 1, a :: l =>
    if c = 0 then []
    else (a :: l).take c :: chunksOfAux c fuel (l.drop (c - 1))

/-- The chunk partition of `processParallel`. -/
def chunksOf (c : Nat) (l : List α) : List (List α) := chunksOfAux c l.length l

/-- One chunk of `processParallel`: every member request is processed (the
awaited interleaving linearized left to right) and a throwing request is
converted by its attached `.catch` into an error result. -/
def runChunk (flag : Nat → Bool) :
    List ReqBehavior → AgentState → List ProcessingResult × AgentState
  | [], s => ([], s)
  | rb :: rest, s =>
    let (r, s1) :=
      match processRequest flag rb s with
      | (.ok r, s') => (r, s')
      | (.error e, s') => (mkErrorResult rb.url e, s')
    let (rs, s2) := runChunk flag rest s1
    (r :: rs, s2)

/-- The chunk loop of `processParallel`: consult the flag before each chunk
(break if set), run the chunk, add the chunk's aggregate counts, yield the
chunk's results; after the loop set step `complete`. -/
def processParallelGo (flag : Nat → Bool) :
    List (List ReqBehavior) → AgentState → AgentState
  | [], s => updateWorkflowState s (fun ws => { ws with step := .complete })
  | ch :: rest, s =>
    let (c, s1) := consultFlag flag .parLoop s
    if c then updateWorkflowState s1 (fun ws => { ws with step := .complete })
    else
      let (rs, s2) := runChunk flag ch s1
      let s3 := updateWorkflowState s2 (fun ws =>
        { ws with completedRequests := ws.completedRequests + rs.length,
                  imagesCollected :=
                    ws.imagesCollected + (rs.map (·.capturedImages)).sum,
                  compositionsCreated :=
                    ws.compositionsCreated + (rs.map (·.compositions)).sum })
      let s4 := emitBatch rs s3
      processParallelGo flag rest s4

/-- Model of `processParallel`: the concurrency cap is hard-coded as
`Math.min(requests.length, 3)` — the batch's `maxConcurrent` is not used. -/
def processParallel (flag : Nat → Bool) (reqs : List ReqBehavior)
    (s : AgentState) : AgentState :=
  processParallelGo flag (chunksOf (min reqs.length 3) reqs) s

/-- Model of `BatchProcessingRequest` (request list plus concurrency policy). -/
structure BatchRequest where
  requests : List ReqBehavior
  parallelProcessing : Bool
  maxConcurrent : Nat
deriving Repr

/-- The fresh `workflowState` assigned by `processBatch`. -/
def initWS (total : Nat) : WorkflowState :=
  { step := .setup, totalRequests := total, completedRequests := 0,
    currentRequestIndex := 0, imagesCollected := 0, compositionsCreated := 0,
    errors := [], currentRequest := none }

/-- Run state at the start of `executeBatchProcessing`. -/
def initState (total : Nat) : AgentState :=
  { ws := initWS total, consults := 0, trace := [], emitted := [],
    stepHist := [Step.setup] }

/-- Model of `processBatch` followed by `executeBatchProcessing`: initialize the
global state, then dispatch on `parallelProcessing`. -/
def processBatch (flag : Nat → Bool) (b : BatchRequest) : AgentState :=
  if b.parallelProcessing then
    processParallel flag b.requests (initState b.requests.length)
  else
    processSequential flag b.requests 0 (initState b.requests.length)

/-- A run on which `cancel()` is never invoked. -/
def neverCancel : Nat → Bool := fun _ => false

/-- A run starting after `cancel()` has already been invoked. -/
def alwaysCancel : Nat → Bool := fun _ => true

/-- The retry configuration of claim C2's example (`maxAttempts = 3`,
`baseDelay = 100`, `backoffMultiplier = 2`, `maxDelay = 1000`). -/
def cfgC2 : RetryConfig :=
  { maxAttempts := 3, baseDelay := 100, maxDelay := 1000,
    backoffMultiplier := 2, jitter := true }

/-- The configuration of the C8 counterexample: `baseDelay = maxDelay = 100`,
multiplier 2, jitter on. -/
def cfgC8 : RetryConfig :=
  { maxAttempts := 3, baseDelay := 100, maxDelay := 100,
    backoffMultiplier := 2, jitter := true }

/-! ## The module-level cancellation flag

`isCancelled` is a module-global `let isCancelled = false`; the only write
anywhere in the repository is `isCancelled = true` inside `cancel()`.  The
operations below are every operation of the module that touches module-level
mutable state (`workflowState`, `isCancelled`) or carries a `reset`:
`cancel()`, `createBodegonAgent` (reassigns `workflowState`), the
state-initialization prefix of `processBatch`, `ProgressTracker.reset` and
`CircuitBreaker.reset` (both act on their own objects only). -/

/-- Module-level mutable state of `bodegon-creator.ts`. -/
structure ModuleState where
  isCancelled : Bool
  ws : WorkflowState
deriving DecidableEq, Repr

/-- The repertoire of operations acting on (or near) the module state. -/
inductive AgentOp
  | cancelOp
  | createAgent
  | batchInit (total : Nat)
  | trackerReset
  | breakerReset
deriving DecidableEq, Repr

/-- Effect of each operation on the module state, read off from the source:
only `cancel()` writes `isCancelled`, and it writes `true`. -/
def applyOp (m : ModuleState) : AgentOp → ModuleState
  | .cancelOp => { m with isCancelled := true }
  | .createAgent => { m with ws := initWS 0 }
  | .batchInit total => { m with ws := initWS total }
  | .trackerReset => m
  | .breakerReset => m

/-- The message fold of `processRequest` without the cancellation checks. -/
def pureMsgs (rb : ReqBehavior) : List Msg → Nat → Nat → Except String (Nat × Nat)
  | [], imgs, comps => .ok (imgs, comps)
  | .raise e :: _, _, _ => .error e
  | .assistant t :: rest, imgs, comps =>
    if msgTriggers t then
      pureMsgs rb rest (simImages rb.rand) (simComps (simImages rb.rand))
    else
      pureMsgs rb rest imgs comps
  | .other :: rest, imgs, comps => pureMsgs rb rest imgs comps

/-- The `Except` outcome of `processRequest` on an uncancelled run. -/
def pureRequestResult (rb : ReqBehavior) : Except String ProcessingResult :=
  match pureMsgs rb rb.messages 0 0 with
  | .error e => .error e
  | .ok (imgs, comps) =>
    .ok { url := rb.url, status := .success, capturedImages := imgs,
          compositions := comps, errors := [] }

/-- The one `ProcessingResult` the executor emits for a request on an
uncancelled run (the request's own result, or the executor's converted
error result). -/
def seqResult (rb : ReqBehavior) : ProcessingResult :=
  match pureRequestResult rb with
  | .ok r => r
  | .error e => mkErrorResult rb.url e

/-- A request whose assistant response never matches the simulated-result
trigger phrases: processed without error, zero images, zero compositions. -/
def rbQuiet : ReqBehavior :=
  { url := "https://example.com/p1", messages := [Msg.assistant "hola"], rand := 0 }

/-- A request whose assistant response matches the trigger phrase, yielding
`0 % 3 + 1 = 1` simulated image and one composition. -/
def rbMatch : ReqBehavior :=
  { url := "https://example.com/p2",
    messages := [Msg.assistant "imagen capturada lista"], rand := 0 }

/-- The cancellation schedule of the C5 counterexample: `cancel()` arrives
right after the first flag consultation. -/
def cancelAfterStart : Nat → Bool := fun k => decide (1 ≤ k)

/-- Rank of a step in the forward order `setup`, `scraping` (capturing),
`composition`, `validation`, `complete`; `error` is ranked last. -/
def stepRank : Step → Nat
  | .setup => 0
  | .scraping => 1
  | .composition => 2
  | .validation => 3
  | .complete => 4
  | .error => 5

/-- The forward-only transition relation claimed by the spec: the step may
only keep or increase its rank, except that any step may move into
`error`. -/
def stepForwardB (a b : Step) : Bool :=
  b == .error || decide (stepRank a ≤ stepRank b)

/-- The transition relation the code actually obeys: forward moves plus the
backward reset `complete → scraping` between consecutive requests. -/
def stepRelB (a b : Step) : Bool :=
  stepForwardB a b || (a == .complete && b == .scraping)

/-- The step values the executor actually uses (`composition`, `validation`
and `error` are never assigned). -/
def goodStepB (st : Step) : Bool :=
  st == .setup || st == .scraping || st == .complete

/-- Boolean chain check of a relation along a list. -/
def chainB (R : Step → Step → Bool) : List Step → Bool
  | [] => true
  | [_] => true
  | a :: b :: t => R a b && chainB R (b :: t)

/-- The step-history invariant maintained by every run: the history obeys
`stepRelB`, uses only the three realized step values, and ends at the
current step. -/
def stepInv (s : AgentState) : Prop :=
  chainB stepRelB s.stepHist = true ∧
  s.stepHist.all goodStepB = true ∧
  s.stepHist.getLast? = some s.ws.step ∧
  goodStepB s.ws.step = true

/-! ## Retry-layer lemmas -/

/-- Fuel irrelevance: `chunksOfAux` ignores the fuel above the list length. -/
theorem chunksOfAux_congr (c : Nat) :
    ∀ (fuel₁ : Nat) (l : List α) (fuel₂ : Nat),
      l.length ≤ fuel₁ → l.length ≤ fuel₂ →
      chunksOfAux c fuel₁ l = chunksOfAux c fuel₂ l := by
  intro fuel₁
  induction fuel₁ with
  | zero =>
    intro l fuel₂ h1 _
    have : l = [] := List.length_eq_zero.mp (by omega)
    subst this
    cases fuel₂ <;> rfl
  | succ n ih =>
    intro l fuel₂ h1 h2
    cases l with
    | nil => cases fuel₂ <;> rfl
    | cons a l =>
      cases fuel₂ with
      | zero => simp at h2
      | succ m =>
        simp only [List.length_cons] at h1 h2
        simp only [chunksOfAux]
        rcases Nat.eq_zero_or_pos c with hc | hc
        · simp [hc]
        · rw [if_neg (by omega), if_neg (by omega),
            ih (l.drop (c - 1)) m (by simp; omega) (by simp; omega)]

/-- Unfolding `chunksOf` on a nonempty list with a positive chunk size. -/
theorem chunksOf_cons (c : Nat) (hc : 0 < c) (a : α) (l : List α) :
    chunksOf c (a :: l) = (a :: l).take c :: chunksOf c ((a :: l).drop c) := by
  obtain ⟨k, rfl⟩ : ∃ k, c = k + 1 := ⟨c - 1, by omega⟩
  simp only [chunksOf, List.length_cons, chunksOfAux, List.drop_succ_cons]
  rw [if_neg (by omega), Nat.add_sub_cancel]
  rw [chunksOfAux_congr (k + 1) l.length (l.drop k) (l.drop k).length
    (by simp) le_rfl]


/-- Unfolding `shouldRetry` into its two factors. -/
theorem shouldRetry_eq (strat : RetryStrategy) (attempt : Nat) (msg : String) :
    shouldRetry strat attempt msg =
      (decide (attempt < strat.config.maxAttempts) && strat.isRetryable msg) := rfl

/-- If the operation fails with a retryable message on every attempt and the
strategy's attempt bound lies within the loop bound, the loop ends by
rethrowing the raw last error at attempt `maxAttempts`. -/
theorem retryLoop_raw (strat : RetryStrategy) (op : Nat → Option String)
    (e : Nat → String) (G : Nat)
    (hop : ∀ a, op a = some (e a)) (hret : ∀ a, strat.isRetryable (e a) = true)
    (hAG : strat.config.maxAttempts ≤ G) :
    ∀ fuel a last, a + fuel = G + 1 → 1 ≤ a → a ≤ strat.config.maxAttempts →
      retryLoop strat op G fuel a last =
        .rawFailure (e strat.config.maxAttempts) strat.config.maxAttempts := by
  intro fuel
  induction fuel with
  | zero =>
    intro a last ha _ haA
    omega
  | succ n ih =>
    intro a last ha h1a haA
    rw [retryLoop]
    rw [hop a]
    simp only [shouldRetry_eq, hret a, Bool.and_true]
    rcases Nat.lt_or_ge a strat.config.maxAttempts with h | h
    · rw [if_pos (by simp [h])]
      exact ih (a + 1) (e a) (by omega) (by omega) (by omega)
    · have hA : a = strat.config.maxAttempts := by omega
      rw [if_neg (by simp [Nat.not_lt.mpr h]), hA]

/-- If the operation fails with a retryable message on every attempt and the
strategy's attempt bound exceeds the loop bound, the loop runs out of
attempts and raises the distinguished exhaustion failure. -/
theorem retryLoop_exhausted (strat : RetryStrategy) (op : Nat → Option String)
    (e : Nat → String) (G : Nat)
    (hop : ∀ a, op a = some (e a)) (hret : ∀ a, strat.isRetryable (e a) = true)
    (hGA : G < strat.config.maxAttempts) :
    ∀ fuel a last, a + fuel = G + 1 →
      retryLoop strat op G fuel a last =
        .exhausted G (if 1 ≤ fuel then e G else last) := by
  intro fuel
  induction fuel with
  | zero =>
    intro a last _
    rw [retryLoop]
    simp
  | succ n ih =>
    intro a last ha
    have haG : a ≤ G := by omega
    have haA : a < strat.config.maxAttempts := by omega
    rw [retryLoop, hop a]
    simp only [shouldRetry_eq, hret a, Bool.and_true]
    rw [if_pos (by simp [haA]), ih (a + 1) (e a) (by omega)]
    rcases Nat.eq_zero_or_pos n with hn | hn
    · have hag : a = G := by omega
      subst hn
      rw [hag]
      simp
    · rw [if_pos (by omega), if_pos (by omega)]

/-- C2, counterexample: with `maxAttempts = 3` (matching the module-global
default loop bound of 3) and an operation that always rejects with
`"Operation timeout"` (a transient-classified message), the executor makes
exactly 3 invocations and then rethrows the raw timeout error — the
distinguished `RetryExhaustedError` is not raised: `shouldRetry(3, e)` is
`3 < 3 && ... = false`, so the final attempt's failure takes the
plain-`throw` branch. -/
theorem retry_exhaustion_claim_false :
    retryWithStrategy (.exponentialBackoff cfgC2)
        (fun _ => some "Operation timeout") 3 =
      .rawFailure "Operation timeout" 3 ∧
    (retryWithStrategy (.exponentialBackoff cfgC2)
        (fun _ => some "Operation timeout") 3).isExhausted = false := by
  constructor <;> decide

/-- C2, amended: for a strategy whose error classifier accepts every raised
message, with at least one permitted attempt on each side, the executor
invokes the operation once per loop iteration and then (a) rethrows the raw
last error after exactly `maxAttempts` invocations whenever the strategy's
`maxAttempts` is within the executor's global loop bound `G` (in particular
for the claim's `maxAttempts = 3` example, where both are 3), and (b) raises
the distinguished retries-exhausted failure carrying the attempt count `G`
and the last message only when the strategy's `maxAttempts` exceeds `G`. -/
theorem retry_transient_failure_outcome (strat : RetryStrategy)
    (op : Nat → Option String) (e : Nat → String) (G : Nat)
    (hG : 1 ≤ G) (hA : 1 ≤ strat.config.maxAttempts)
    (hop : ∀ a, op a = some (e a))
    (hret : ∀ a, strat.isRetryable (e a) = true) :
    (strat.config.maxAttempts ≤ G →
      retryWithStrategy strat op G =
        .rawFailure (e strat.config.maxAttempts) strat.config.maxAttempts) ∧
    (G < strat.config.maxAttempts →
      retryWithStrategy strat op G = .exhausted G (e G)) := by
  constructor
  · intro hAG
    exact retryLoop_raw strat op e G hop hret hAG G 1 "" (by omega) le_rfl hA
  · intro hGA
    have h := retryLoop_exhausted strat op e G hop hret hGA G 1 "" (by omega)
    rwa [if_pos hG] at h

/-- Witness for `retry_transient_failure_outcome`: with the strategy's
`maxAttempts = 5` above a global loop bound of 3, three always-timeout
attempts end in the exhaustion failure. -/
theorem retry_transient_failure_outcome_witness :
    retryWithStrategy
        (.exponentialBackoff
          { maxAttempts := 5, baseDelay := 100, maxDelay := 1000,
            backoffMultiplier := 2, jitter := true })
        (fun _ => some "Operation timeout") 3 =
      .exhausted 3 "Operation timeout" := by
  have h := retry_transient_failure_outcome
    (.exponentialBackoff
      { maxAttempts := 5, baseDelay := 100, maxDelay := 1000,
        backoffMultiplier := 2, jitter := true })
    (fun _ => some "Operation timeout") (fun _ => "Operation timeout") 3
    (by decide) (by decide) (fun a => rfl)
    (fun a => by show expIsRetryable "Operation timeout" = true; decide)
  exact h.2 (by decide)

/-- C7, counterexample: the two strategies' `shouldRetry` disagree at
attempt 1 on the message `"boom"` (not matched by the exponential strategy's
transient patterns, not containing any of the fixed strategy's fatal
markers). -/
theorem strategies_shouldRetry_differ :
    shouldRetry
        (.exponentialBackoff
          { maxAttempts := 3, baseDelay := 2000, maxDelay := 30000,
            backoffMultiplier := 2, jitter := true }) 1 "boom" = false ∧
    shouldRetry
        (.fixedDelay
          { maxAttempts := 3, baseDelay := 2000, maxDelay := 30000,
            backoffMultiplier := 2, jitter := true }) 1 "boom" = true := by
  constructor <;> decide

/-- C7, amended: the strategies share only the attempt-bound part of the
eligibility test (`attempt < maxAttempts`); below the bound the exponential
strategy retries exactly the messages matching its transient patterns while
the fixed-delay strategy retries exactly the messages lacking its fatal
markers, and these two classifiers disagree on some messages (e.g.
`"boom"`). -/
theorem shouldRetry_shared_bound_distinct_classifiers :
    (∀ (strat : RetryStrategy) (attempt : Nat) (msg : String),
      strat.config.maxAttempts ≤ attempt → shouldRetry strat attempt msg = false) ∧
    (∀ (cfg : RetryConfig) (attempt : Nat) (msg : String),
      attempt < cfg.maxAttempts →
        shouldRetry (.exponentialBackoff cfg) attempt msg = expIsRetryable msg ∧
        shouldRetry (.fixedDelay cfg) attempt msg = fixedIsRetryable msg) ∧
    (expIsRetryable "boom" = false ∧ fixedIsRetryable "boom" = true) := by
  refine ⟨?_, ?_, by decide, by decide⟩
  · intro strat attempt msg h
    simp [shouldRetry_eq, Nat.not_lt.mpr h]
  · intro cfg attempt msg h
    constructor <;>
      simp [shouldRetry_eq, h, RetryStrategy.config, RetryStrategy.isRetryable]

/-- Witness for `shouldRetry_shared_bound_distinct_classifiers`. -/
theorem shouldRetry_shared_bound_distinct_classifiers_witness :
    shouldRetry
        (.exponentialBackoff
          { maxAttempts := 2, baseDelay := 1, maxDelay := 1,
            backoffMultiplier := 2, jitter := false }) 5 "timeout" = false ∧
    shouldRetry
        (.fixedDelay
          { maxAttempts := 2, baseDelay := 1, maxDelay := 1,
            backoffMultiplier := 2, jitter := false }) 1 "timeout" =
      fixedIsRetryable "timeout" :=
  ⟨shouldRetry_shared_bound_distinct_classifiers.1 _ 5 _ (by decide),
   (shouldRetry_shared_bound_distinct_classifiers.2.1 _ 1 _ (by decide)).2⟩

/-- C8, counterexample: jitter is added after capping, so with
`baseDelay = maxDelay = 100` and a jitter draw of 1/2 the first delay is
105 > `maxDelay`, and it exceeds the second delay (drawn with jitter 0),
refuting both the cap and the monotonicity under jitter. -/
theorem delay_cap_claim_false :
    expGetDelay cfgC8 1 (1 / 2) = 105 ∧
    ¬ expGetDelay cfgC8 1 (1 / 2) ≤ cfgC8.maxDelay ∧
    ¬ expGetDelay cfgC8 1 (1 / 2) ≤ expGetDelay cfgC8 2 0 := by
  refine ⟨?_, ?_, ?_⟩ <;> norm_num [expGetDelay, cfgC8]

/-- C8, amended: for multiplier > 1 and positive configured delays, without
jitter the delay sequence is non-decreasing in the attempt number and capped
at `maxDelay`; with jitter (a draw in [0,1]) each delay is capped at
`1.1 × maxDelay` instead, monotonicity and the plain `maxDelay` cap being
lost to the post-cap jitter term. -/
theorem expGetDelay_monotone_capped (cfg : RetryConfig)
    (hmult : 1 < cfg.backoffMultiplier) (hbase : 0 < cfg.baseDelay)
    (hmax : 0 < cfg.maxDelay) :
    (cfg.jitter = false →
      (∀ n m r₁ r₂, n ≤ m → expGetDelay cfg n r₁ ≤ expGetDelay cfg m r₂) ∧
      (∀ n r, expGetDelay cfg n r ≤ cfg.maxDelay)) ∧
    (cfg.jitter = true →
      ∀ n r, 0 ≤ r → r ≤ 1 →
        expGetDelay cfg n r ≤ cfg.maxDelay * (11 / 10)) := by
  have hm0 : (0 : ℚ) ≤ cfg.backoffMultiplier := by linarith
  have hbase' : ∀ n : Nat, 0 ≤ cfg.baseDelay * cfg.backoffMultiplier ^ n := by
    intro n
    positivity
  constructor
  · intro hj
    constructor
    · intro n m r₁ r₂ hnm
      simp only [expGetDelay, hj, if_false, Bool.false_eq_true]
      exact min_le_min
        (mul_le_mul_of_nonneg_left
          (pow_le_pow_right₀ hmult.le (Nat.sub_le_sub_right hnm 1)) hbase.le)
        le_rfl
    · intro n r
      simp only [expGetDelay, hj, if_false, Bool.false_eq_true]
      exact min_le_right _ _
  · intro hj n r hr0 hr1
    simp only [expGetDelay, hj, if_true]
    set capped := min (cfg.baseDelay * cfg.backoffMultiplier ^ (n - 1)) cfg.maxDelay
      with hcapped
    have h1 : capped ≤ cfg.maxDelay := min_le_right _ _
    have h2 : 0 ≤ capped := le_min (hbase' (n - 1)) hmax.le
    nlinarith [mul_le_mul_of_nonneg_left hr1 h2, mul_le_mul_of_nonneg_right h1 hr0]

/-- C9: for every OPEN circuit breaker, a call made before `recoveryTimeout`
has elapsed since the last failure is rejected with the circuit-open error,
the wrapped operation is invoked zero times, and the breaker is unchanged;
the first call at or after `recoveryTimeout` invokes the wrapped operation
exactly once, in state HALF_OPEN. -/
theorem circuitBreaker_open_gate (cb : CircuitBreaker) (now : Int)
    (opFails : Bool) (hOpen : cb.state = .opened) :
    (now - cb.lastFailureTime < cb.recoveryTimeout →
      (cb.execute now opFails).outcome = .circuitOpenError ∧
      (cb.execute now opFails).calls = 0 ∧
      (cb.execute now opFails).final = cb) ∧
    (cb.recoveryTimeout ≤ now - cb.lastFailureTime →
      (cb.execute now opFails).calls = 1 ∧
      (cb.execute now opFails).stateAtInvocation = some .halfOpen) := by
  constructor
  · intro hlt
    rw [CircuitBreaker.execute, if_pos ⟨hOpen, hlt⟩]
    exact ⟨rfl, rfl, rfl⟩
  · intro hge
    rw [CircuitBreaker.execute, if_neg (by rintro ⟨-, h⟩; omega), if_pos hOpen]
    cases opFails <;> exact ⟨rfl, rfl⟩

/-- Witness for `circuitBreaker_open_gate`: a breaker opened at time 1000
with a 60000ms recovery timeout rejects at time 2000 without a call, and
probes in HALF_OPEN at time 61000. -/
theorem circuitBreaker_open_gate_witness :
    ((CircuitBreaker.execute
        { failureThreshold := 5, recoveryTimeout := 60000, failureCount := 5,
          lastFailureTime := 1000, state := .opened } 2000 true).calls = 0 ∧
      (CircuitBreaker.execute
        { failureThreshold := 5, recoveryTimeout := 60000, failureCount := 5,
          lastFailureTime := 1000, state := .opened } 2000 true).outcome =
        .circuitOpenError) ∧
    ((CircuitBreaker.execute
        { failureThreshold := 5, recoveryTimeout := 60000, failureCount := 5,
          lastFailureTime := 1000, state := .opened } 61000 true).calls = 1 ∧
      (CircuitBreaker.execute
        { failureThreshold := 5, recoveryTimeout := 60000, failureCount := 5,
          lastFailureTime := 1000, state := .opened } 61000 true).stateAtInvocation =
        some .halfOpen) :=
  ⟨⟨((circuitBreaker_open_gate _ 2000 true rfl).1 (by decide)).2.1,
    ((circuitBreaker_open_gate _ 2000 true rfl).1 (by decide)).1⟩,
   (circuitBreaker_open_gate _ 61000 true rfl).2 (by decide)⟩

/-- Witness for `expGetDelay_monotone_capped` at the default configuration
without jitter: the first delay is below the second and below `maxDelay`. -/
theorem expGetDelay_monotone_capped_witness :
    expGetDelay
        { maxAttempts := 3, baseDelay := 2000, maxDelay := 30000,
          backoffMultiplier := 2, jitter := false } 1 0 ≤
      expGetDelay
        { maxAttempts := 3, baseDelay := 2000, maxDelay := 30000,
          backoffMultiplier := 2, jitter := false } 2 0 ∧
    expGetDelay
        { maxAttempts := 3, baseDelay := 2000, maxDelay := 30000,
          backoffMultiplier := 2, jitter := false } 1 0 ≤ (30000 : ℚ) :=
  ⟨((expGetDelay_monotone_capped _ (by norm_num) (by norm_num) (by norm_num)).1
      rfl).1 1 2 0 0 (by omega),
   ((expGetDelay_monotone_capped _ (by norm_num) (by norm_num) (by norm_num)).1
      rfl).2 1 0⟩

/-- C10: after `cancel()` the module flag stays `true` under every sequence
of subsequent operations (reset, new agents, new batches included), and a
batch run (sequential or parallel) started with the flag set consults the
flag once at its first loop head, starts no request (no in-request
consultation sites, nothing processed) and emits zero result batches,
finishing with step `complete` and zero completed requests. -/
theorem cancel_flag_latched :
    (∀ (m : ModuleState) (ops : List AgentOp),
      (ops.foldl applyOp (applyOp m .cancelOp)).isCancelled = true) ∧
    (∀ reqs : List ReqBehavior,
      (processSequential alwaysCancel reqs 0 (initState reqs.length)).emitted = [] ∧
      (processSequential alwaysCancel reqs 0 (initState reqs.length)).trace.all
        (fun site => site != .inRequest) = true ∧
      (processSequential alwaysCancel reqs 0 (initState reqs.length)).ws.step =
        .complete ∧
      (processSequential alwaysCancel reqs 0
        (initState reqs.length)).ws.completedRequests = 0) ∧
    (∀ reqs : List ReqBehavior,
      (processParallel alwaysCancel reqs (initState reqs.length)).emitted = [] ∧
      (processParallel alwaysCancel reqs (initState reqs.length)).trace.all
        (fun site => site != .inRequest) = true ∧
      (processParallel alwaysCancel reqs (initState reqs.length)).ws.step =
        .complete ∧
      (processParallel alwaysCancel reqs
        (initState reqs.length)).ws.completedRequests = 0) := by
  refine ⟨?_, ?_, ?_⟩
  · intro m ops
    suffices h : ∀ (ops : List AgentOp) (m' : ModuleState),
        m'.isCancelled = true → (ops.foldl applyOp m').isCancelled = true by
      exact h ops _ rfl
    intro ops
    induction ops with
    | nil => intro m' h; exact h
    | cons op rest ih =>
      intro m' h
      rcases op with _ | _ | total | _ | _ <;>
        exact ih _ (by simp [applyOp, h])
  · intro reqs
    cases reqs with
    | nil => exact ⟨rfl, rfl, rfl, rfl⟩
    | cons rb rest =>
      refine ⟨rfl, rfl, rfl, rfl⟩
  · intro reqs
    cases reqs with
    | nil => exact ⟨rfl, rfl, rfl, rfl⟩
    | cons rb rest =>
      rw [processParallel, chunksOf_cons _ (by simp)]
      exact ⟨rfl, rfl, rfl, rfl⟩

/-! ## Executor lemmas

On a run without cancellation the outcome of one request is a pure function
of its behaviour oracle (`pureMsgs` / `seqResult` below); the state-passing
functions are then characterized against these pure values.
-/

/-- The function `procMessages` never touches the workflow state, the emitted batches or
the step history (it only consults the flag). -/
theorem procMessages_state (flag : Nat → Bool) (rb : ReqBehavior) :
    ∀ (ms : List Msg) (i c : Nat) (s : AgentState),
      ((procMessages flag rb ms i c s).2).ws = s.ws ∧
      ((procMessages flag rb ms i c s).2).emitted = s.emitted ∧
      ((procMessages flag rb ms i c s).2).stepHist = s.stepHist := by
  intro ms
  induction ms with
  | nil => intro i c s; exact ⟨rfl, rfl, rfl⟩
  | cons m rest ih =>
    intro i c s
    cases m with
    | raise e => exact ⟨rfl, rfl, rfl⟩
    | assistant t =>
      simp only [procMessages, consultFlag]
      by_cases hc : flag s.consults
      · simp [hc]
      · simp only [hc, if_false, Bool.false_eq_true]
        by_cases ht : msgTriggers t
        · simp only [ht, if_true]
          exact ih _ _ _
        · simp only [ht, if_false, Bool.false_eq_true]
          exact ih _ _ _
    | other =>
      simp only [procMessages, consultFlag]
      by_cases hc : flag s.consults
      · simp [hc]
      · simp only [hc, if_false, Bool.false_eq_true]
        exact ih _ _ _

/-- On an uncancelled run, `procMessages` computes `pureMsgs`. -/
theorem procMessages_never_fst (rb : ReqBehavior) :
    ∀ (ms : List Msg) (i c : Nat) (s : AgentState),
      (procMessages neverCancel rb ms i c s).1 = pureMsgs rb ms i c := by
  intro ms
  induction ms with
  | nil => intro i c s; rfl
  | cons m rest ih =>
    intro i c s
    cases m with
    | raise e => rfl
    | assistant t =>
      simp only [procMessages, pureMsgs, consultFlag, neverCancel, if_false,
        Bool.false_eq_true]
      by_cases ht : msgTriggers t
      · simp only [ht, if_true]
        exact ih _ _ _
      · simp only [ht, if_false, Bool.false_eq_true]
        exact ih _ _ _
    | other =>
      simp only [procMessages, pureMsgs, consultFlag, neverCancel, if_false,
        Bool.false_eq_true]
      exact ih _ _ _

/-- The function `processRequest` leaves the emitted batches, the error list and every
counter of the workflow state unchanged (it only sets `step` and
`currentRequest`). -/
theorem processRequest_state (flag : Nat → Bool) (rb : ReqBehavior) (s : AgentState) :
    ((processRequest flag rb s).2).emitted = s.emitted ∧
    ((processRequest flag rb s).2).ws.completedRequests = s.ws.completedRequests ∧
    ((processRequest flag rb s).2).ws.imagesCollected = s.ws.imagesCollected ∧
    ((processRequest flag rb s).2).ws.compositionsCreated = s.ws.compositionsCreated ∧
    ((processRequest flag rb s).2).ws.totalRequests = s.ws.totalRequests ∧
    ((processRequest flag rb s).2).ws.errors = s.ws.errors := by
  rw [processRequest]
  rcases hm : procMessages flag rb rb.messages 0 0
      (updateWorkflowState s
        (fun ws => { ws with step := .scraping, currentRequest := some rb.url }))
    with ⟨res, s2⟩
  have hst := procMessages_state flag rb rb.messages 0 0
    (updateWorkflowState s
      (fun ws => { ws with step := .scraping, currentRequest := some rb.url }))
  rw [hm] at hst
  cases res with
  | error e =>
    simp only []
    rw [hst.1, hst.2.1]
    exact ⟨rfl, rfl, rfl, rfl, rfl, rfl⟩
  | ok p =>
    rcases p with ⟨imgs, comps⟩
    simp only [updateWorkflowState]
    rw [hst.1, hst.2.1]
    exact ⟨rfl, rfl, rfl, rfl, rfl, rfl⟩

/-- On an uncancelled run, `processRequest` returns `pureRequestResult`. -/
theorem processRequest_never_fst (rb : ReqBehavior) (s : AgentState) :
    (processRequest neverCancel rb s).1 = pureRequestResult rb := by
  rw [processRequest, pureRequestResult]
  rcases hm : procMessages neverCancel rb rb.messages 0 0
      (updateWorkflowState s
        (fun ws => { ws with step := .scraping, currentRequest := some rb.url }))
    with ⟨res, s2⟩
  have hfst := procMessages_never_fst rb rb.messages 0 0
    (updateWorkflowState s
      (fun ws => { ws with step := .scraping, currentRequest := some rb.url }))
  rw [hm] at hfst
  rw [← hfst]
  cases res with
  | error e => rfl
  | ok p => rcases p with ⟨imgs, comps⟩; rfl

/-- The value `seqResult` of a throwing request is the converted error result. -/
theorem seqResult_of_error (rb : ReqBehavior) (e : String)
    (h : pureRequestResult rb = .error e) : seqResult rb = mkErrorResult rb.url e := by
  rw [seqResult, h]

/-- The value `seqResult` of a normally finishing request is the request's own result. -/
theorem seqResult_of_ok (rb : ReqBehavior) (r : ProcessingResult)
    (h : pureRequestResult rb = .ok r) : seqResult rb = r := by
  rw [seqResult, h]

/-- Characterization of an uncancelled sequential run: one singleton batch
per request in submission order, counters advanced by the emitted results'
counts, final step `complete`. -/
theorem processSequential_never :
    ∀ (reqs : List ReqBehavior) (i : Nat) (s : AgentState),
      (processSequential neverCancel reqs i s).emitted =
        s.emitted ++ reqs.map (fun rb => [seqResult rb]) ∧
      (processSequential neverCancel reqs i s).ws.completedRequests =
        s.ws.completedRequests + reqs.length ∧
      (processSequential neverCancel reqs i s).ws.imagesCollected =
        s.ws.imagesCollected +
          (reqs.map (fun rb => (seqResult rb).capturedImages)).sum ∧
      (processSequential neverCancel reqs i s).ws.compositionsCreated =
        s.ws.compositionsCreated +
          (reqs.map (fun rb => (seqResult rb).compositions)).sum ∧
      (processSequential neverCancel reqs i s).ws.totalRequests =
        s.ws.totalRequests ∧
      (processSequential neverCancel reqs i s).ws.step = .complete := by
  intro reqs
  induction reqs with
  | nil =>
    intro i s
    simp [processSequential, updateWorkflowState]
  | cons rb rest ih =>
    intro i s
    rw [processSequential]
    simp only [consultFlag, neverCancel, if_false, Bool.false_eq_true]
    set s2 := updateWorkflowState
      { s with consults := s.consults + 1, trace := s.trace ++ [Site.seqLoop] }
      (fun ws => { ws with step := .scraping, currentRequestIndex := i,
                           currentRequest := some rb.url }) with hs2
    have hs2e : s2.emitted = s.emitted := rfl
    have hs2c : s2.ws.completedRequests = s.ws.completedRequests := rfl
    have hs2i : s2.ws.imagesCollected = s.ws.imagesCollected := rfl
    have hs2k : s2.ws.compositionsCreated = s.ws.compositionsCreated := rfl
    have hs2t : s2.ws.totalRequests = s.ws.totalRequests := rfl
    rcases hp : processRequest neverCancel rb s2 with ⟨res, s3⟩
    have hfst := processRequest_never_fst rb s2
    have hst := processRequest_state neverCancel rb s2
    rw [hp] at hfst hst
    simp only [] at hfst hst
    cases res with
    | ok r =>
      dsimp only
      have hr : seqResult rb = r := seqResult_of_ok rb r hfst.symm
      have h := ih (i + 1)
        (updateWorkflowState (emitBatch [r] s3) (fun ws =>
          { ws with completedRequests := ws.completedRequests + 1,
                    imagesCollected := ws.imagesCollected + r.capturedImages,
                    compositionsCreated := ws.compositionsCreated + r.compositions }))
      refine ⟨?_, ?_, ?_, ?_, ?_, h.2.2.2.2.2⟩
      · rw [h.1]
        simp only [updateWorkflowState, emitBatch, List.map_cons]
        rw [hst.1, hs2e]
        simp [List.append_assoc, hr]
      · rw [h.2.1]
        simp only [updateWorkflowState, emitBatch, List.length_cons]
        rw [hst.2.1, hs2c]
        omega
      · rw [h.2.2.1]
        simp only [updateWorkflowState, emitBatch, List.map_cons, List.sum_cons, hr]
        rw [hst.2.2.1, hs2i]
        omega
      · rw [h.2.2.2.1]
        simp only [updateWorkflowState, emitBatch, List.map_cons, List.sum_cons, hr]
        rw [hst.2.2.2.1, hs2k]
        omega
      · rw [h.2.2.2.2.1]
        simp only [updateWorkflowState, emitBatch]
        rw [hst.2.2.2.2.1, hs2t]
    | error e =>
      dsimp only
      have hr : seqResult rb = mkErrorResult rb.url e := seqResult_of_error rb e hfst.symm
      have h := ih (i + 1)
        (emitBatch [mkErrorResult rb.url e]
          (updateWorkflowState s3 (fun ws =>
            { ws with completedRequests := ws.completedRequests + 1,
                      errors := ws.errors ++
                        [{ step := "scraping", message := e, requestId := i }] })))
      refine ⟨?_, ?_, ?_, ?_, ?_, h.2.2.2.2.2⟩
      · rw [h.1]
        simp only [updateWorkflowState, emitBatch, List.map_cons]
        rw [hst.1, hs2e]
        simp [List.append_assoc, hr]
      · rw [h.2.1]
        simp only [updateWorkflowState, emitBatch, List.length_cons]
        rw [hst.2.1, hs2c]
        omega
      · rw [h.2.2.1]
        simp only [updateWorkflowState, emitBatch, List.map_cons, List.sum_cons, hr,
          mkErrorResult]
        rw [hst.2.2.1, hs2i]
        omega
      · rw [h.2.2.2.1]
        simp only [updateWorkflowState, emitBatch, List.map_cons, List.sum_cons, hr,
          mkErrorResult]
        rw [hst.2.2.2.1, hs2k]
        omega
      · rw [h.2.2.2.2.1]
        simp only [updateWorkflowState, emitBatch]
        rw [hst.2.2.2.2.1, hs2t]

/-- A chunk produces exactly one result per member request (under any
cancellation schedule), and leaves the emitted batches and all counters
unchanged. -/
theorem runChunk_state (flag : Nat → Bool) :
    ∀ (ch : List ReqBehavior) (s : AgentState),
      (runChunk flag ch s).1.length = ch.length ∧
      ((runChunk flag ch s).2).emitted = s.emitted ∧
      ((runChunk flag ch s).2).ws.completedRequests = s.ws.completedRequests ∧
      ((runChunk flag ch s).2).ws.imagesCollected = s.ws.imagesCollected ∧
      ((runChunk flag ch s).2).ws.compositionsCreated = s.ws.compositionsCreated ∧
      ((runChunk flag ch s).2).ws.totalRequests = s.ws.totalRequests := by
  intro ch
  induction ch with
  | nil => intro s; exact ⟨rfl, rfl, rfl, rfl, rfl, rfl⟩
  | cons rb rest ih =>
    intro s
    rw [runChunk]
    rcases hp : processRequest flag rb s with ⟨res, s1⟩
    have hst := processRequest_state flag rb s
    rw [hp] at hst
    simp only [] at hst
    cases res with
    | ok r =>
      dsimp only
      rcases hrc : runChunk flag rest s1 with ⟨rs, s2⟩
      have h := ih s1
      rw [hrc] at h
      simp only [] at h
      exact ⟨by simp [h.1], by rw [h.2.1, hst.1], by rw [h.2.2.1, hst.2.1],
        by rw [h.2.2.2.1, hst.2.2.1], by rw [h.2.2.2.2.1, hst.2.2.2.1],
        by rw [h.2.2.2.2.2, hst.2.2.2.2.1]⟩
    | error e =>
      dsimp only
      rcases hrc : runChunk flag rest s1 with ⟨rs, s2⟩
      have h := ih s1
      rw [hrc] at h
      simp only [] at h
      exact ⟨by simp [h.1], by rw [h.2.1, hst.1], by rw [h.2.2.1, hst.2.1],
        by rw [h.2.2.2.1, hst.2.2.1], by rw [h.2.2.2.2.1, hst.2.2.2.1],
        by rw [h.2.2.2.2.2, hst.2.2.2.2.1]⟩

/-- On an uncancelled run a chunk's result list is the pointwise
`seqResult` of its members. -/
theorem runChunk_never_fst :
    ∀ (ch : List ReqBehavior) (s : AgentState),
      (runChunk neverCancel ch s).1 = ch.map seqResult := by
  intro ch
  induction ch with
  | nil => intro s; rfl
  | cons rb rest ih =>
    intro s
    rw [runChunk]
    rcases hp : processRequest neverCancel rb s with ⟨res, s1⟩
    have hfst := processRequest_never_fst rb s
    rw [hp] at hfst
    simp only [] at hfst
    cases res with
    | ok r =>
      dsimp only
      rcases hrc : runChunk neverCancel rest s1 with ⟨rs, s2⟩
      have h := ih s1
      rw [hrc] at h
      simp only [] at h
      rw [List.map_cons, ← h, seqResult_of_ok rb r hfst.symm]
    | error e =>
      dsimp only
      rcases hrc : runChunk neverCancel rest s1 with ⟨rs, s2⟩
      have h := ih s1
      rw [hrc] at h
      simp only [] at h
      rw [List.map_cons, ← h, seqResult_of_error rb e hfst.symm]

/-- Characterization of an uncancelled parallel chunk loop: one batch per
chunk in chunk order, counters advanced by the emitted results' counts,
final step `complete`. -/
theorem processParallelGo_never :
    ∀ (chs : List (List ReqBehavior)) (s : AgentState),
      (processParallelGo neverCancel chs s).emitted =
        s.emitted ++ chs.map (fun ch => ch.map seqResult) ∧
      (processParallelGo neverCancel chs s).ws.completedRequests =
        s.ws.completedRequests + (chs.map List.length).sum ∧
      (processParallelGo neverCancel chs s).ws.imagesCollected =
        s.ws.imagesCollected +
          (chs.flatten.map (fun rb => (seqResult rb).capturedImages)).sum ∧
      (processParallelGo neverCancel chs s).ws.compositionsCreated =
        s.ws.compositionsCreated +
          (chs.flatten.map (fun rb => (seqResult rb).compositions)).sum ∧
      (processParallelGo neverCancel chs s).ws.totalRequests =
        s.ws.totalRequests ∧
      (processParallelGo neverCancel chs s).ws.step = .complete := by
  intro chs
  induction chs with
  | nil =>
    intro s
    simp [processParallelGo, updateWorkflowState]
  | cons ch rest ih =>
    intro s
    rw [processParallelGo]
    simp only [consultFlag, neverCancel, if_false, Bool.false_eq_true]
    set s1 : AgentState :=
      { s with consults := s.consults + 1, trace := s.trace ++ [Site.parLoop] }
      with hs1
    rcases hrc : runChunk neverCancel ch s1 with ⟨rs, s2⟩
    have hfst := runChunk_never_fst ch s1
    have hstc := runChunk_state neverCancel ch s1
    rw [hrc] at hfst hstc
    simp only [] at hfst hstc
    dsimp only
    have h := ih (emitBatch rs
      (updateWorkflowState s2 (fun ws =>
        { ws with completedRequests := ws.completedRequests + rs.length,
                  imagesCollected :=
                    ws.imagesCollected + (rs.map (·.capturedImages)).sum,
                  compositionsCreated :=
                    ws.compositionsCreated + (rs.map (·.compositions)).sum })))
    refine ⟨?_, ?_, ?_, ?_, ?_, h.2.2.2.2.2⟩
    · rw [h.1]
      simp only [updateWorkflowState, emitBatch, List.map_cons]
      rw [hstc.2.1, hfst]
      have hse : s1.emitted = s.emitted := rfl
      rw [hse]
      simp [List.append_assoc]
    · rw [h.2.1]
      simp only [updateWorkflowState, emitBatch, List.map_cons, List.sum_cons]
      rw [hstc.2.2.1, hfst]
      have : s1.ws.completedRequests = s.ws.completedRequests := rfl
      rw [this]
      simp only [List.length_map]
      omega
    · rw [h.2.2.1]
      simp only [updateWorkflowState, emitBatch, List.flatten_cons, List.map_append,
        List.sum_append]
      rw [hstc.2.2.2.1, hfst]
      have : s1.ws.imagesCollected = s.ws.imagesCollected := rfl
      rw [this]
      simp only [List.map_map]
      have hcomp : (ch.map fun rb => (seqResult rb).capturedImages) =
          ch.map ((fun r : ProcessingResult => r.capturedImages) ∘ seqResult) := rfl
      rw [hcomp]
      omega
    · rw [h.2.2.2.1]
      simp only [updateWorkflowState, emitBatch, List.flatten_cons, List.map_append,
        List.sum_append]
      rw [hstc.2.2.2.2.1, hfst]
      have : s1.ws.compositionsCreated = s.ws.compositionsCreated := rfl
      rw [this]
      simp only [List.map_map]
      have hcomp : (ch.map fun rb => (seqResult rb).compositions) =
          ch.map ((fun r : ProcessingResult => r.compositions) ∘ seqResult) := rfl
      rw [hcomp]
      omega
    · rw [h.2.2.2.2.1]
      simp only [updateWorkflowState, emitBatch]
      rw [hstc.2.2.2.2.2]

/-- Concatenating the chunks gives back the original list. -/
theorem chunksOf_flatten (c : Nat) (hc : 0 < c) :
    ∀ (n : Nat) (l : List α), l.length ≤ n → (chunksOf c l).flatten = l := by
  intro n
  induction n with
  | zero =>
    intro l hl
    have : l = [] := List.length_eq_zero.mp (by omega)
    subst this
    rfl
  | succ n ih =>
    intro l hl
    cases l with
    | nil => rfl
    | cons a t =>
      rw [chunksOf_cons c hc, List.flatten_cons,
        ih ((a :: t).drop c)
          (by simp only [List.length_drop, List.length_cons]
              simp only [List.length_cons] at hl
              omega),
        List.take_append_drop]

/-- Every chunk has at most `c` elements. -/
theorem chunksOf_sizes (c : Nat) (hc : 0 < c) :
    ∀ (n : Nat) (l : List α), l.length ≤ n →
      ∀ ch ∈ chunksOf c l, ch.length ≤ c := by
  intro n
  induction n with
  | zero =>
    intro l hl ch hch
    have : l = [] := List.length_eq_zero.mp (by omega)
    subst this
    simp [chunksOf, chunksOfAux] at hch
  | succ n ih =>
    intro l hl ch hch
    cases l with
    | nil => simp [chunksOf, chunksOfAux] at hch
    | cons a t =>
      rw [chunksOf_cons c hc] at hch
      rcases List.mem_cons.mp hch with h | h
      · subst h
        simp
      · exact ih ((a :: t).drop c)
          (by simp only [List.length_drop, List.length_cons]
              simp only [List.length_cons] at hl
              omega) ch h

/-- The number of chunks is the ceiling `(length + c - 1) / c`. -/
theorem chunksOf_length (c : Nat) (hc : 0 < c) :
    ∀ (n : Nat) (l : List α), l.length ≤ n →
      (chunksOf c l).length = (l.length + c - 1) / c := by
  intro n
  induction n with
  | zero =>
    intro l hl
    have : l = [] := List.length_eq_zero.mp (by omega)
    subst this
    have hdz : (c - 1) / c = 0 := Nat.div_eq_of_lt (by omega)
    simp [chunksOf, chunksOfAux, hdz]
  | succ n ih =>
    intro l hl
    cases l with
    | nil =>
      have hdz : (c - 1) / c = 0 := Nat.div_eq_of_lt (by omega)
      simp [chunksOf, chunksOfAux, hdz]
    | cons a t =>
      rw [chunksOf_cons c hc, List.length_cons,
        ih ((a :: t).drop c)
          (by simp only [List.length_drop, List.length_cons]
              simp only [List.length_cons] at hl
              omega)]
      simp only [List.length_drop, List.length_cons]
      rcases le_or_lt (t.length + 1) c with h | h
      · have h0 : t.length + 1 - c = 0 := by omega
        rw [h0]
        have h1 : (0 + c - 1) / c = 0 := Nat.div_eq_of_lt (by omega)
        rw [h1]
        have h2 : (t.length + 1 + c - 1) / c = 1 := by
          have e : t.length + 1 + c - 1 = t.length + c := by omega
          rw [e, Nat.add_div_right _ hc, Nat.div_eq_of_lt (by omega)]
        omega
      · have e1 : t.length + 1 - c + c - 1 = (t.length - c) + c := by omega
        have e2 : t.length + 1 + c - 1 = t.length + c := by omega
        rw [e1, e2, Nat.add_div_right _ hc, Nat.add_div_right _ hc]
        have e3 : t.length = (t.length - c) + c := by omega
        have e4 : t.length / c = (t.length - c) / c + 1 := by
          conv_lhs => rw [e3]
          rw [Nat.add_div_right _ hc]
        omega

/-- Flattening singleton batches recovers the underlying results. -/
theorem flatten_map_singleton (f : α → β) :
    ∀ l : List α, (l.map (fun x => [f x])).flatten = l.map f := by
  intro l
  induction l with
  | nil => rfl
  | cons a t ih => simp [ih]

/-- C1, counterexample: a parallel batch of K = 2 requests with
`maxConcurrent = 1` is emitted as a single group of size 2, not in
`ceil(2/1) = 2` groups of size at most 1: `processParallel` hard-codes its
cap as `Math.min(requests.length, 3)` and ignores `maxConcurrent`. -/
theorem parallel_chunking_claim_false :
    (processBatch neverCancel
      { requests := [rbQuiet, rbMatch], parallelProcessing := true,
        maxConcurrent := 1 }).emitted.length = 1 ∧
    ¬ (processBatch neverCancel
      { requests := [rbQuiet, rbMatch], parallelProcessing := true,
        maxConcurrent := 1 }).emitted.length = (2 + 1 - 1) / 1 ∧
    (processBatch neverCancel
      { requests := [rbQuiet, rbMatch], parallelProcessing := true,
        maxConcurrent := 1 }).emitted.all
      (fun g => decide (g.length ≤ 1)) = false := by
  refine ⟨by decide, by decide, by decide⟩

/-- C1, amended: the parallel executor ignores the batch's `maxConcurrent`
entirely (runs with different values of it are identical); with the
hard-coded cap `c = min(K, 3)` it emits `ceil(K/c)` groups, every group has
at most `c` elements, and the union of all emitted results has exactly K
elements. -/
theorem parallel_chunking_hardcoded_cap (reqs : List ReqBehavior) (M M' : Nat) :
    processBatch neverCancel
        { requests := reqs, parallelProcessing := true, maxConcurrent := M } =
      processBatch neverCancel
        { requests := reqs, parallelProcessing := true, maxConcurrent := M' } ∧
    (processBatch neverCancel
      { requests := reqs, parallelProcessing := true,
        maxConcurrent := M }).emitted.length =
      (reqs.length + min reqs.length 3 - 1) / min reqs.length 3 ∧
    (processBatch neverCancel
      { requests := reqs, parallelProcessing := true,
        maxConcurrent := M }).emitted.all
      (fun g => decide (g.length ≤ min reqs.length 3)) = true ∧
    (processBatch neverCancel
      { requests := reqs, parallelProcessing := true,
        maxConcurrent := M }).emitted.flatten.length = reqs.length := by
  refine ⟨rfl, ?_, ?_, ?_⟩ <;>
  · simp only [processBatch, processParallel, if_true]
    have hpar := processParallelGo_never
      (chunksOf (min reqs.length 3) reqs) (initState reqs.length)
    cases reqs with
    | nil => decide
    | cons rb rest =>
      have hc : 0 < min (rb :: rest).length 3 := by simp
      have hflat : (chunksOf (min (rb :: rest).length 3) (rb :: rest)).flatten =
          rb :: rest :=
        chunksOf_flatten _ hc (rb :: rest).length _ le_rfl
      first
      | -- number of emitted groups
        rw [hpar.1]
        simp only [initState, List.nil_append, List.length_map]
        exact chunksOf_length _ hc (rb :: rest).length _ le_rfl
      | -- every group's size is at most the cap
        rw [hpar.1]
        simp only [initState, List.nil_append]
        rw [List.all_eq_true]
        intro g hg
        rcases List.mem_map.mp hg with ⟨ch, hch, rfl⟩
        simp only [List.length_map, decide_eq_true_eq]
        exact chunksOf_sizes _ hc (rb :: rest).length _ le_rfl ch hch
      | -- the union of the emitted groups has K elements
        rw [hpar.1]
        simp only [initState, List.nil_append, ← List.map_flatten, hflat,
          List.length_map]

/-- C6: on an uncancelled batch run in either mode (any `maxConcurrent`),
exactly one result is emitted per submitted request (the flattened emission
is the per-request results in order), and the final workflow-state totals
`completedRequests`, `imagesCollected` and `compositionsCreated` equal the
number of emitted results and the sums of their image and composition
counts; the run ends with step `complete`. -/
theorem run_totals_match_emitted (reqs : List ReqBehavior) (par : Bool) (M : Nat) :
    (processBatch neverCancel
      { requests := reqs, parallelProcessing := par,
        maxConcurrent := M }).emitted.flatten = reqs.map seqResult ∧
    (processBatch neverCancel
      { requests := reqs, parallelProcessing := par,
        maxConcurrent := M }).ws.completedRequests =
      (processBatch neverCancel
        { requests := reqs, parallelProcessing := par,
          maxConcurrent := M }).emitted.flatten.length ∧
    (processBatch neverCancel
      { requests := reqs, parallelProcessing := par,
        maxConcurrent := M }).ws.imagesCollected =
      ((processBatch neverCancel
        { requests := reqs, parallelProcessing := par,
          maxConcurrent := M }).emitted.flatten.map
        (fun r => r.capturedImages)).sum ∧
    (processBatch neverCancel
      { requests := reqs, parallelProcessing := par,
        maxConcurrent := M }).ws.compositionsCreated =
      ((processBatch neverCancel
        { requests := reqs, parallelProcessing := par,
          maxConcurrent := M }).emitted.flatten.map
        (fun r => r.compositions)).sum ∧
    (processBatch neverCancel
      { requests := reqs, parallelProcessing := par,
        maxConcurrent := M }).ws.totalRequests = reqs.length ∧
    (processBatch neverCancel
      { requests := reqs, parallelProcessing := par,
        maxConcurrent := M }).ws.step = .complete := by
  cases par with
  | false =>
    simp only [processBatch, Bool.false_eq_true, if_false]
    have h := processSequential_never reqs 0 (initState reqs.length)
    have hemit : (processSequential neverCancel reqs 0 (initState reqs.length)).emitted =
        reqs.map (fun rb => [seqResult rb]) := by
      rw [h.1]; rfl
    refine ⟨?_, ?_, ?_, ?_, ?_, h.2.2.2.2.2⟩
    · rw [hemit, flatten_map_singleton]
    · rw [hemit, flatten_map_singleton, h.2.1]
      simp [initState, initWS]
    · rw [hemit, flatten_map_singleton, h.2.2.1]
      simp only [initState, initWS, List.map_map]
      simp [Function.comp_def]
    · rw [hemit, flatten_map_singleton, h.2.2.2.1]
      simp only [initState, initWS, List.map_map]
      simp [Function.comp_def]
    · rw [h.2.2.2.2.1]
      simp [initState, initWS]
  | true =>
    simp only [processBatch, processParallel, if_true]
    have h := processParallelGo_never
      (chunksOf (min reqs.length 3) reqs) (initState reqs.length)
    have hflat : (chunksOf (min reqs.length 3) reqs).flatten = reqs := by
      cases reqs with
      | nil => rfl
      | cons rb rest =>
        exact chunksOf_flatten _ (by simp) (rb :: rest).length _ le_rfl
    have hemit : (processParallelGo neverCancel
        (chunksOf (min reqs.length 3) reqs) (initState reqs.length)).emitted.flatten =
        reqs.map seqResult := by
      rw [h.1]
      simp only [initState, List.nil_append, ← List.map_flatten, hflat]
    refine ⟨hemit, ?_, ?_, ?_, ?_, h.2.2.2.2.2⟩
    · rw [hemit, h.2.1]
      simp only [initState, initWS, List.length_map]
      rw [← List.length_flatten, hflat]
      simp
    · rw [hemit, h.2.2.1]
      simp only [initState, initWS, List.map_map, hflat]
      simp [Function.comp_def]
    · rw [hemit, h.2.2.2.1]
      simp only [initState, initWS, List.map_map, hflat]
      simp [Function.comp_def]
    · rw [h.2.2.2.2.1]
      simp [initState, initWS]

/-- Helper: a normally completed request's result always has status
`success`. -/
theorem pureRequestResult_status (rb : ReqBehavior) (r : ProcessingResult)
    (h : pureRequestResult rb = .ok r) : r.status = .success := by
  rw [pureRequestResult] at h
  rcases hm : pureMsgs rb rb.messages 0 0 with e | ⟨imgs, comps⟩ <;> rw [hm] at h
  · cases h
  · cases h
    rfl

/-- C3, counterexample: a request whose response triggers nothing completes
without exception with zero captured items and zero compositions, yet its
assembled result has status `success`, not `partial` (and `success` is
returned without any composition having been produced): `hasErrors` is never
set, so `processRequest` always returns `success` on the no-exception
path. -/
theorem result_status_claim_false :
    (processRequest neverCancel rbQuiet (initState 1)).1 =
      Except.ok
        { url := "https://example.com/p1", status := RStatus.success,
          capturedImages := 0, compositions := 0, errors := [] } := rfl

/-- C3, amended: every result assembled by `processRequest` itself (the
no-exception path) has status `success` regardless of the captured or
composed counts; `partial` is never produced; `error`-status results arise
only from the executor converting an exception, so every emitted
per-request result has status `success` or `error`. -/
theorem processRequest_status_always_success :
    (∀ (flag : Nat → Bool) (rb : ReqBehavior) (s : AgentState)
        (r : ProcessingResult),
      (processRequest flag rb s).1 = Except.ok r → r.status = .success) ∧
    (∀ rb : ReqBehavior,
      (seqResult rb).status = .success ∨ (seqResult rb).status = .error) ∧
    (∀ rb : ReqBehavior, (seqResult rb).status ≠ .partialStatus) := by
  have h1 : ∀ (flag : Nat → Bool) (rb : ReqBehavior) (s : AgentState)
      (r : ProcessingResult),
      (processRequest flag rb s).1 = Except.ok r → r.status = .success := by
    intro flag rb s r h
    rw [processRequest] at h
    rcases hm : procMessages flag rb rb.messages 0 0
        (updateWorkflowState s
          (fun ws => { ws with step := .scraping, currentRequest := some rb.url }))
      with ⟨res, s2⟩
    rw [hm] at h
    cases res with
    | error e => cases h
    | ok p =>
      rcases p with ⟨imgs, comps⟩
      dsimp only at h
      cases h
      rfl
  have h2 : ∀ rb : ReqBehavior,
      (seqResult rb).status = .success ∨ (seqResult rb).status = .error := by
    intro rb
    rw [seqResult]
    rcases hm : pureRequestResult rb with e | r
    · right; rfl
    · left
      exact pureRequestResult_status rb r hm
  refine ⟨h1, h2, ?_⟩
  intro rb
  rcases h2 rb with h | h <;> rw [h] <;> intro hcon <;> cases hcon

/-- Witness for `processRequest_status_always_success`, instantiated at the
non-matching request. -/
theorem processRequest_status_always_success_witness :
    ({ url := "https://example.com/p1", status := RStatus.success,
       capturedImages := 0, compositions := 0,
       errors := [] } : ProcessingResult).status = RStatus.success ∧
    (seqResult rbQuiet).status ≠ .partialStatus :=
  ⟨processRequest_status_always_success.1 neverCancel rbQuiet (initState 1) _
      rfl,
   processRequest_status_always_success.2.2 rbQuiet⟩

/-! ## Step-history claims -/

/-- Appending one element to a chained list. -/
theorem chainB_append_singleton (R : Step → Step → Bool) :
    ∀ (l : List Step) (b : Step),
      chainB R (l ++ [b]) = true ↔
        chainB R l = true ∧ ∀ a, l.getLast? = some a → R a b = true := by
  intro l
  induction l with
  | nil =>
    intro b
    constructor
    · intro _
      exact ⟨rfl, fun a ha => by cases ha⟩
    · intro _
      rfl
  | cons a t ih =>
    intro b
    cases t with
    | nil =>
      constructor
      · intro h
        simp only [List.cons_append, List.nil_append, chainB,
          Bool.and_eq_true] at h
        exact ⟨rfl, fun x hx => by cases hx; exact h.1⟩
      · rintro ⟨-, h2⟩
        simp only [List.cons_append, List.nil_append, chainB, Bool.and_eq_true]
        exact ⟨h2 a rfl, trivial⟩
    | cons c t' =>
      constructor
      · intro h
        have h' : R a c = true ∧ chainB R ((c :: t') ++ [b]) = true := by
          simpa only [List.cons_append, chainB, Bool.and_eq_true] using h
        obtain ⟨h3, h4⟩ := (ih b).mp h'.2
        constructor
        · simp only [chainB, Bool.and_eq_true]
          exact ⟨h'.1, h3⟩
        · intro x hx
          rw [List.getLast?_cons_cons] at hx
          exact h4 x hx
      · rintro ⟨hchain, hlast⟩
        have h' : R a c = true ∧ chainB R (c :: t') = true := by
          simpa only [chainB, Bool.and_eq_true] using hchain
        have h2 : chainB R ((c :: t') ++ [b]) = true :=
          (ih b).mpr ⟨h'.2, fun x hx =>
            hlast x (by rw [List.getLast?_cons_cons]; exact hx)⟩
        simp only [List.cons_append, chainB, Bool.and_eq_true]
        constructor
        · exact h'.1
        · simpa only [List.cons_append] using h2

/-- The initial run state satisfies the invariant. -/
theorem stepInv_init (total : Nat) : stepInv (initState total) :=
  ⟨rfl, rfl, rfl, rfl⟩

/-- Any realized step value follows any good step value under `stepRelB`. -/
theorem stepRelB_of_good (a b : Step) (ha : goodStepB a = true)
    (hb : b = .scraping ∨ b = .complete ∨ b = a) : stepRelB a b = true := by
  cases a <;> rcases hb with rfl | rfl | rfl <;>
    simp_all [goodStepB, stepRelB, stepForwardB, stepRank]

/-- The update `updateWorkflowState` preserves the invariant whenever the new step is
`scraping`, `complete`, or unchanged. -/
theorem stepInv_update (s : AgentState) (f : WorkflowState → WorkflowState)
    (h : stepInv s)
    (hb : (f s.ws).step = .scraping ∨ (f s.ws).step = .complete ∨
      (f s.ws).step = s.ws.step) :
    stepInv (updateWorkflowState s f) := by
  obtain ⟨hch, hall, hlast, hgood⟩ := h
  have hgb : goodStepB (f s.ws).step = true := by
    rcases hb with hb | hb | hb <;> rw [hb]
    · rfl
    · rfl
    · exact hgood
  refine ⟨?_, ?_, ?_, hgb⟩
  · rw [show (updateWorkflowState s f).stepHist = s.stepHist ++ [(f s.ws).step] from rfl]
    rw [chainB_append_singleton]
    refine ⟨hch, ?_⟩
    intro a ha
    rw [hlast] at ha
    cases ha
    exact stepRelB_of_good _ _ hgood hb
  · rw [show (updateWorkflowState s f).stepHist = s.stepHist ++ [(f s.ws).step] from rfl]
    rw [List.all_append]
    simp [hall, hgb]
  · rw [show (updateWorkflowState s f).stepHist = s.stepHist ++ [(f s.ws).step] from rfl]
    rw [List.getLast?_concat]
    rfl

/-- The function `procMessages` preserves the invariant (it never touches the workflow
state or the history). -/
theorem procMessages_stepInv (flag : Nat → Bool) (rb : ReqBehavior)
    (ms : List Msg) (i c : Nat) (s : AgentState) (h : stepInv s) :
    stepInv ((procMessages flag rb ms i c s).2) := by
  obtain ⟨hws, _, hh⟩ := procMessages_state flag rb ms i c s
  obtain ⟨h1, h2, h3, h4⟩ := h
  exact ⟨by rw [hh]; exact h1, by rw [hh]; exact h2,
    by rw [hh, hws]; exact h3, by rw [hws]; exact h4⟩

/-- The function `processRequest` preserves the invariant: it assigns only `scraping`
and `complete`. -/
theorem processRequest_stepInv (flag : Nat → Bool) (rb : ReqBehavior)
    (s : AgentState) (h : stepInv s) :
    stepInv ((processRequest flag rb s).2) := by
  rw [processRequest]
  have h1 : stepInv (updateWorkflowState s
      (fun ws => { ws with step := .scraping, currentRequest := some rb.url })) :=
    stepInv_update s _ h (Or.inl rfl)
  have h2 := procMessages_stepInv flag rb rb.messages 0 0 _ h1
  rcases hm : procMessages flag rb rb.messages 0 0
      (updateWorkflowState s
        (fun ws => { ws with step := .scraping, currentRequest := some rb.url }))
    with ⟨res, s2⟩
  rw [hm] at h2
  cases res with
  | error e => exact h2
  | ok p =>
    rcases p with ⟨imgs, comps⟩
    exact stepInv_update s2 _ h2 (Or.inr (Or.inl rfl))

/-- A sequential run preserves the step invariant. -/
theorem processSequential_stepInv (flag : Nat → Bool) :
    ∀ (reqs : List ReqBehavior) (i : Nat) (s : AgentState),
      stepInv s → stepInv (processSequential flag reqs i s) := by
  intro reqs
  induction reqs with
  | nil =>
    intro i s h
    exact stepInv_update s _ h (Or.inr (Or.inl rfl))
  | cons rb rest ih =>
    intro i s h
    rw [processSequential]
    simp only [consultFlag]
    have hcons : stepInv
        { s with consults := s.consults + 1, trace := s.trace ++ [Site.seqLoop] } := h
    by_cases hc : flag s.consults
    · simp only [hc, if_true]
      exact stepInv_update _ _ hcons (Or.inr (Or.inl rfl))
    · simp only [hc, if_false, Bool.false_eq_true]
      have h2 : stepInv (updateWorkflowState
          { s with consults := s.consults + 1, trace := s.trace ++ [Site.seqLoop] }
          (fun ws => { ws with step := .scraping, currentRequestIndex := i,
                               currentRequest := some rb.url })) :=
        stepInv_update _ _ hcons (Or.inl rfl)
      have h3 := processRequest_stepInv flag rb _ h2
      rcases hp : processRequest flag rb (updateWorkflowState
          { s with consults := s.consults + 1, trace := s.trace ++ [Site.seqLoop] }
          (fun ws => { ws with step := .scraping, currentRequestIndex := i,
                               currentRequest := some rb.url }))
        with ⟨res, s3⟩
      rw [hp] at h3
      cases res with
      | ok r =>
        dsimp only
        have h4 : stepInv (emitBatch [r] s3) := h3
        exact ih (i + 1) _ (stepInv_update _ _ h4 (Or.inr (Or.inr rfl)))
      | error e =>
        dsimp only
        have h4 : stepInv (updateWorkflowState s3 (fun ws =>
            { ws with completedRequests := ws.completedRequests + 1,
                      errors := ws.errors ++
                        [{ step := "scraping", message := e, requestId := i }] })) :=
          stepInv_update _ _ h3 (Or.inr (Or.inr rfl))
        exact ih (i + 1) _ h4

/-- A chunk preserves the step invariant. -/
theorem runChunk_stepInv (flag : Nat → Bool) :
    ∀ (ch : List ReqBehavior) (s : AgentState),
      stepInv s → stepInv ((runChunk flag ch s).2) := by
  intro ch
  induction ch with
  | nil => intro s h; exact h
  | cons rb rest ih =>
    intro s h
    rw [runChunk]
    have h2 := processRequest_stepInv flag rb s h
    rcases hp : processRequest flag rb s with ⟨res, s1⟩
    rw [hp] at h2
    cases res with
    | ok r =>
      dsimp only
      rcases hrc : runChunk flag rest s1 with ⟨rs, s2⟩
      have h3 := ih s1 h2
      rw [hrc] at h3
      exact h3
    | error e =>
      dsimp only
      rcases hrc : runChunk flag rest s1 with ⟨rs, s2⟩
      have h3 := ih s1 h2
      rw [hrc] at h3
      exact h3

/-- A parallel chunk loop preserves the step invariant. -/
theorem processParallelGo_stepInv (flag : Nat → Bool) :
    ∀ (chs : List (List ReqBehavior)) (s : AgentState),
      stepInv s → stepInv (processParallelGo flag chs s) := by
  intro chs
  induction chs with
  | nil =>
    intro s h
    exact stepInv_update s _ h (Or.inr (Or.inl rfl))
  | cons ch rest ih =>
    intro s h
    rw [processParallelGo]
    simp only [consultFlag]
    have hcons : stepInv
        { s with consults := s.consults + 1, trace := s.trace ++ [Site.parLoop] } := h
    by_cases hc : flag s.consults
    · simp only [hc, if_true]
      exact stepInv_update _ _ hcons (Or.inr (Or.inl rfl))
    · simp only [hc, if_false, Bool.false_eq_true]
      have h2 := runChunk_stepInv flag ch _ hcons
      rcases hrc : runChunk flag ch
          { s with consults := s.consults + 1, trace := s.trace ++ [Site.parLoop] }
        with ⟨rs, s2⟩
      rw [hrc] at h2
      dsimp only
      have h2' : stepInv s2 := h2
      have h3 : stepInv (updateWorkflowState s2 (fun ws =>
          { ws with completedRequests := ws.completedRequests + rs.length,
                    imagesCollected :=
                      ws.imagesCollected + (rs.map (·.capturedImages)).sum,
                    compositionsCreated :=
                      ws.compositionsCreated + (rs.map (·.compositions)).sum })) :=
        stepInv_update s2 _ h2' (Or.inr (Or.inr rfl))
      exact ih _ h3

/-- Every sequential run ends with step `complete` (also when cancelled). -/
theorem processSequential_step_complete (flag : Nat → Bool) :
    ∀ (reqs : List ReqBehavior) (i : Nat) (s : AgentState),
      (processSequential flag reqs i s).ws.step = .complete := by
  intro reqs
  induction reqs with
  | nil => intro i s; rfl
  | cons rb rest ih =>
    intro i s
    rw [processSequential]
    simp only [consultFlag]
    by_cases hc : flag s.consults
    · simp only [hc, if_true]
      rfl
    · simp only [hc, if_false, Bool.false_eq_true]
      rcases hp : processRequest flag rb (updateWorkflowState
          { s with consults := s.consults + 1, trace := s.trace ++ [Site.seqLoop] }
          (fun ws => { ws with step := .scraping, currentRequestIndex := i,
                               currentRequest := some rb.url }))
        with ⟨res, s3⟩
      cases res with
      | ok r => exact ih (i + 1) _
      | error e => exact ih (i + 1) _

/-- Every parallel chunk loop ends with step `complete` (also when
cancelled). -/
theorem processParallelGo_step_complete (flag : Nat → Bool) :
    ∀ (chs : List (List ReqBehavior)) (s : AgentState),
      (processParallelGo flag chs s).ws.step = .complete := by
  intro chs
  induction chs with
  | nil => intro s; rfl
  | cons ch rest ih =>
    intro s
    rw [processParallelGo]
    simp only [consultFlag]
    by_cases hc : flag s.consults
    · simp only [hc, if_true]
      rfl
    · simp only [hc, if_false, Bool.false_eq_true]
      rcases hrc : runChunk flag ch
          { s with consults := s.consults + 1, trace := s.trace ++ [Site.parLoop] }
        with ⟨rs, s2⟩
      exact ih _

/-- C4, counterexample: an uncancelled sequential run of two trivial
requests produces the step history
`setup, scraping, scraping, complete, complete, scraping, ...`:
`processRequest` sets step `complete` at the end of each request, so the
step moves backward from `complete` to `scraping` when the next request
starts while one request is still unprocessed — the forward-only chain
condition fails on the actual history. -/
theorem step_forward_claim_false :
    chainB stepForwardB
      (processSequential neverCancel [rbQuiet, rbQuiet] 0 (initState 2)).stepHist
      = false ∧
    (processSequential neverCancel [rbQuiet, rbQuiet] 0
      (initState 2)).stepHist[4]? = some Step.complete ∧
    (processSequential neverCancel [rbQuiet, rbQuiet] 0
      (initState 2)).stepHist[5]? = some Step.scraping := by
  refine ⟨by decide, by decide, by decide⟩

/-- C4, amended: in every run (sequential or parallel, cancelled or not)
the step history uses only the values `setup`, `scraping` and `complete`
(`composition`, `validation` and `error` are never assigned), consecutive
steps either move forward in the spec's order or take the backward reset
`complete → scraping` at a request boundary, and the run ends with step
`complete`. -/
theorem step_values_and_transitions (flag : Nat → Bool)
    (reqs : List ReqBehavior) (par : Bool) (M : Nat) :
    chainB stepRelB (processBatch flag
      { requests := reqs, parallelProcessing := par,
        maxConcurrent := M }).stepHist = true ∧
    (processBatch flag
      { requests := reqs, parallelProcessing := par,
        maxConcurrent := M }).stepHist.all goodStepB = true ∧
    (processBatch flag
      { requests := reqs, parallelProcessing := par,
        maxConcurrent := M }).ws.step = .complete := by
  cases par with
  | false =>
    simp only [processBatch, Bool.false_eq_true, if_false]
    have h := processSequential_stepInv flag reqs 0 (initState reqs.length)
      (stepInv_init reqs.length)
    exact ⟨h.1, h.2.1, processSequential_step_complete flag reqs 0 _⟩
  | true =>
    simp only [processBatch, if_true, processParallel]
    have h := processParallelGo_stepInv flag
      (chunksOf (min reqs.length 3) reqs) (initState reqs.length)
      (stepInv_init reqs.length)
    exact ⟨h.1, h.2.1, processParallelGo_step_complete flag _ _⟩

/-! ## Cancellation claims -/

/-- The function `procMessages` appends only `inRequest` consultation sites. -/
theorem procMessages_trace (p : Site → Bool) (hin : p .inRequest = true)
    (flag : Nat → Bool) (rb : ReqBehavior) :
    ∀ (ms : List Msg) (i c : Nat) (s : AgentState), s.trace.all p = true →
      ((procMessages flag rb ms i c s).2).trace.all p = true := by
  intro ms
  induction ms with
  | nil => intro i c s h; exact h
  | cons m rest ih =>
    intro i c s h
    have hcons : (consultFlag flag Site.inRequest s).2.trace.all p = true := by
      simp only [consultFlag, List.all_append, Bool.and_eq_true]
      exact ⟨h, by simp [hin]⟩
    cases m with
    | raise e => exact h
    | assistant t =>
      simp only [procMessages, consultFlag]
      by_cases hc : flag s.consults
      · simp only [hc, if_true]
        exact hcons
      · simp only [hc, if_false, Bool.false_eq_true]
        by_cases ht : msgTriggers t
        · simp only [ht, if_true]
          exact ih _ _ _ hcons
        · simp only [ht, if_false, Bool.false_eq_true]
          exact ih _ _ _ hcons
    | other =>
      simp only [procMessages, consultFlag]
      by_cases hc : flag s.consults
      · simp only [hc, if_true]
        exact hcons
      · simp only [hc, if_false, Bool.false_eq_true]
        exact ih _ _ _ hcons

/-- The function `processRequest` appends only `inRequest` consultation sites. -/
theorem processRequest_trace (p : Site → Bool) (hin : p .inRequest = true)
    (flag : Nat → Bool) (rb : ReqBehavior) (s : AgentState)
    (h : s.trace.all p = true) :
    ((processRequest flag rb s).2).trace.all p = true := by
  rw [processRequest]
  have h1 := procMessages_trace p hin flag rb rb.messages 0 0
    (updateWorkflowState s
      (fun ws => { ws with step := .scraping, currentRequest := some rb.url })) h
  rcases hm : procMessages flag rb rb.messages 0 0
      (updateWorkflowState s
        (fun ws => { ws with step := .scraping, currentRequest := some rb.url }))
    with ⟨res, s2⟩
  rw [hm] at h1
  cases res with
  | error e => exact h1
  | ok pr => rcases pr with ⟨imgs, comps⟩; exact h1

/-- A sequential run consults the flag only at the loop head and inside
requests, and its completed-request counter advances exactly with the
emitted results. -/
theorem processSequential_counts_trace (flag : Nat → Bool) :
    ∀ (reqs : List ReqBehavior) (i : Nat) (s : AgentState),
      ((processSequential flag reqs i s).ws.completedRequests +
          s.emitted.flatten.length =
        (processSequential flag reqs i s).emitted.flatten.length +
          s.ws.completedRequests) ∧
      (s.trace.all (fun site => site == Site.seqLoop || site == Site.inRequest)
          = true →
        (processSequential flag reqs i s).trace.all
          (fun site => site == Site.seqLoop || site == Site.inRequest) = true) := by
  intro reqs
  induction reqs with
  | nil =>
    intro i s
    constructor
    · simp only [processSequential, updateWorkflowState]
      omega
    · intro h
      exact h
  | cons rb rest ih =>
    intro i s
    rw [processSequential]
    simp only [consultFlag]
    set sc : AgentState :=
      { s with consults := s.consults + 1, trace := s.trace ++ [Site.seqLoop] }
      with hsc
    have hsctr : ∀ (h : s.trace.all
        (fun site => site == Site.seqLoop || site == Site.inRequest) = true),
        sc.trace.all (fun site => site == Site.seqLoop || site == Site.inRequest)
          = true := by
      intro h
      simp only [hsc, List.all_append, Bool.and_eq_true]
      exact ⟨h, by decide⟩
    by_cases hc : flag s.consults
    · simp only [hc, if_true]
      constructor
      · simp only [updateWorkflowState]
        have h1 : sc.ws.completedRequests = s.ws.completedRequests := rfl
        have h2 : sc.emitted = s.emitted := rfl
        rw [h1, h2]
        omega
      · exact fun h => hsctr h
    · simp only [hc, if_false, Bool.false_eq_true]
      set s2 := updateWorkflowState sc
        (fun ws => { ws with step := .scraping, currentRequestIndex := i,
                             currentRequest := some rb.url }) with hs2
      have hs2tr : ∀ (h : s.trace.all
          (fun site => site == Site.seqLoop || site == Site.inRequest) = true),
          s2.trace.all (fun site => site == Site.seqLoop || site == Site.inRequest)
            = true := fun h => hsctr h
      rcases hp : processRequest flag rb s2 with ⟨res, s3⟩
      have hst := processRequest_state flag rb s2
      rw [hp] at hst
      have htr3 : ∀ (h : s.trace.all
          (fun site => site == Site.seqLoop || site == Site.inRequest) = true),
          s3.trace.all (fun site => site == Site.seqLoop || site == Site.inRequest)
            = true := by
        intro h
        have := processRequest_trace _ (by decide) flag rb s2 (hs2tr h)
        rw [hp] at this
        exact this
      have he3 : s3.emitted = s.emitted := by
        rw [hst.1]
        exact rfl
      have hc3 : s3.ws.completedRequests = s.ws.completedRequests := by
        rw [hst.2.1]
        exact rfl
      cases res with
      | ok r =>
        dsimp only
        have h := ih (i + 1)
          (updateWorkflowState (emitBatch [r] s3) (fun ws =>
            { ws with completedRequests := ws.completedRequests + 1,
                      imagesCollected := ws.imagesCollected + r.capturedImages,
                      compositionsCreated := ws.compositionsCreated + r.compositions }))
        constructor
        · have hcount := h.1
          have e1 : (updateWorkflowState (emitBatch [r] s3) (fun ws =>
              { ws with completedRequests := ws.completedRequests + 1,
                        imagesCollected := ws.imagesCollected + r.capturedImages,
                        compositionsCreated :=
                          ws.compositionsCreated + r.compositions })).emitted =
              s3.emitted ++ [[r]] := rfl
          have e2 : (updateWorkflowState (emitBatch [r] s3) (fun ws =>
              { ws with completedRequests := ws.completedRequests + 1,
                        imagesCollected := ws.imagesCollected + r.capturedImages,
                        compositionsCreated :=
                          ws.compositionsCreated + r.compositions })).ws.completedRequests =
              s3.ws.completedRequests + 1 := rfl
          rw [e1, e2, he3, hc3] at hcount
          simp only [List.flatten_append, List.length_append, List.flatten_cons,
            List.flatten_nil, List.append_nil, List.length_cons,
            List.length_nil] at hcount
          omega
        · intro htr
          exact h.2 (by
            simp only [updateWorkflowState, emitBatch]
            exact htr3 htr)
      | error e =>
        dsimp only
        have h := ih (i + 1)
          (emitBatch [mkErrorResult rb.url e]
            (updateWorkflowState s3 (fun ws =>
              { ws with completedRequests := ws.completedRequests + 1,
                        errors := ws.errors ++
                          [{ step := "scraping", message := e, requestId := i }] })))
        constructor
        · have hcount := h.1
          have e1 : (emitBatch [mkErrorResult rb.url e]
              (updateWorkflowState s3 (fun ws =>
                { ws with completedRequests := ws.completedRequests + 1,
                          errors := ws.errors ++
                            [{ step := "scraping", message := e,
                               requestId := i }] }))).emitted =
              s3.emitted ++ [[mkErrorResult rb.url e]] := rfl
          have e2 : (emitBatch [mkErrorResult rb.url e]
              (updateWorkflowState s3 (fun ws =>
                { ws with completedRequests := ws.completedRequests + 1,
                          errors := ws.errors ++
                            [{ step := "scraping", message := e,
                               requestId := i }] }))).ws.completedRequests =
              s3.ws.completedRequests + 1 := rfl
          rw [e1, e2, he3, hc3] at hcount
          simp only [List.flatten_append, List.length_append, List.flatten_cons,
            List.flatten_nil, List.append_nil, List.length_cons,
            List.length_nil] at hcount
          omega
        · intro htr
          exact h.2 (by
            simp only [updateWorkflowState, emitBatch]
            exact htr3 htr)

/-- A chunk consults the flag only inside requests. -/
theorem runChunk_trace (p : Site → Bool) (hin : p .inRequest = true)
    (flag : Nat → Bool) :
    ∀ (ch : List ReqBehavior) (s : AgentState), s.trace.all p = true →
      ((runChunk flag ch s).2).trace.all p = true := by
  intro ch
  induction ch with
  | nil => intro s h; exact h
  | cons rb rest ih =>
    intro s h
    rw [runChunk]
    have h1 := processRequest_trace p hin flag rb s h
    rcases hp : processRequest flag rb s with ⟨res, s1⟩
    rw [hp] at h1
    cases res with
    | ok r =>
      dsimp only
      rcases hrc : runChunk flag rest s1 with ⟨rs, s2⟩
      have h2 := ih s1 h1
      rw [hrc] at h2
      exact h2
    | error e =>
      dsimp only
      rcases hrc : runChunk flag rest s1 with ⟨rs, s2⟩
      have h2 := ih s1 h1
      rw [hrc] at h2
      exact h2

/-- A parallel chunk loop consults the flag only at chunk heads and inside
requests, and its completed-request counter advances exactly with the
emitted results. -/
theorem processParallelGo_counts_trace (flag : Nat → Bool) :
    ∀ (chs : List (List ReqBehavior)) (s : AgentState),
      ((processParallelGo flag chs s).ws.completedRequests +
          s.emitted.flatten.length =
        (processParallelGo flag chs s).emitted.flatten.length +
          s.ws.completedRequests) ∧
      (s.trace.all (fun site => site == Site.parLoop || site == Site.inRequest)
          = true →
        (processParallelGo flag chs s).trace.all
          (fun site => site == Site.parLoop || site == Site.inRequest) = true) := by
  intro chs
  induction chs with
  | nil =>
    intro s
    constructor
    · simp only [processParallelGo, updateWorkflowState]
      omega
    · intro h
      exact h
  | cons ch rest ih =>
    intro s
    rw [processParallelGo]
    simp only [consultFlag]
    set sc : AgentState :=
      { s with consults := s.consults + 1, trace := s.trace ++ [Site.parLoop] }
      with hsc
    have hsctr : ∀ (h : s.trace.all
        (fun site => site == Site.parLoop || site == Site.inRequest) = true),
        sc.trace.all (fun site => site == Site.parLoop || site == Site.inRequest)
          = true := by
      intro h
      simp only [hsc, List.all_append, Bool.and_eq_true]
      exact ⟨h, by decide⟩
    by_cases hc : flag s.consults
    · simp only [hc, if_true]
      constructor
      · simp only [updateWorkflowState]
        have h1 : sc.ws.completedRequests = s.ws.completedRequests := rfl
        have h2 : sc.emitted = s.emitted := rfl
        rw [h1, h2]
        omega
      · exact fun h => hsctr h
    · simp only [hc, if_false, Bool.false_eq_true]
      rcases hrc : runChunk flag ch sc with ⟨rs, s2⟩
      have hst := runChunk_state flag ch sc
      rw [hrc] at hst
      have htr2 : ∀ (h : s.trace.all
          (fun site => site == Site.parLoop || site == Site.inRequest) = true),
          s2.trace.all (fun site => site == Site.parLoop || site == Site.inRequest)
            = true := by
        intro h
        have := runChunk_trace _ (by decide) flag ch sc (hsctr h)
        rw [hrc] at this
        exact this
      dsimp only
      have he2 : s2.emitted = s.emitted := by
        rw [hst.2.1]
      have hc2 : s2.ws.completedRequests = s.ws.completedRequests := by
        rw [hst.2.2.1]
      have h := ih (emitBatch rs
        (updateWorkflowState s2 (fun ws =>
          { ws with completedRequests := ws.completedRequests + rs.length,
                    imagesCollected :=
                      ws.imagesCollected + (rs.map (·.capturedImages)).sum,
                    compositionsCreated :=
                      ws.compositionsCreated + (rs.map (·.compositions)).sum })))
      constructor
      · have hcount := h.1
        have e1 : (emitBatch rs
            (updateWorkflowState s2 (fun ws =>
              { ws with completedRequests := ws.completedRequests + rs.length,
                        imagesCollected :=
                          ws.imagesCollected + (rs.map (·.capturedImages)).sum,
                        compositionsCreated :=
                          ws.compositionsCreated +
                            (rs.map (·.compositions)).sum }))).emitted =
            s2.emitted ++ [rs] := rfl
        have e2 : (emitBatch rs
            (updateWorkflowState s2 (fun ws =>
              { ws with completedRequests := ws.completedRequests + rs.length,
                        imagesCollected :=
                          ws.imagesCollected + (rs.map (·.capturedImages)).sum,
                        compositionsCreated :=
                          ws.compositionsCreated +
                            (rs.map (·.compositions)).sum }))).ws.completedRequests =
            s2.ws.completedRequests + rs.length := rfl
        rw [e1, e2, he2, hc2] at hcount
        simp only [List.flatten_append, List.length_append, List.flatten_cons,
          List.flatten_nil, List.append_nil] at hcount
        omega
      · intro htr
        exact h.2 (by
          simp only [updateWorkflowState, emitBatch]
          exact htr2 htr)

/-- C5, counterexample: with cancellation arriving after a sequential
request has started, the flag is consulted again inside the request (not
only at the loop heads), and the started request is aborted: the emitted
result is the converted `"Procesamiento cancelado por el usuario"` error
result, not the request's own result (which would have been a success with
one captured image and one composition). -/
theorem cancellation_consultation_claim_false :
    (processSequential cancelAfterStart [rbMatch] 0 (initState 1)).trace.all
      (fun site => site == Site.seqLoop || site == Site.parLoop) = false ∧
    (processSequential cancelAfterStart [rbMatch] 0 (initState 1)).emitted =
      [[mkErrorResult "https://example.com/p2"
          "Procesamiento cancelado por el usuario"]] ∧
    seqResult rbMatch =
      { url := "https://example.com/p2", status := RStatus.success,
        capturedImages := 1, compositions := 1, errors := [] } := by
  refine ⟨by decide, by decide, by decide⟩

/-- C5, amended: under every cancellation schedule, the flag is consulted
before each sequential request, before each parallel chunk, and before
processing each message inside a request (a request in flight when the flag
is set aborts at its next message and is converted into an error-status
result); in both modes the final `completedRequests` equals the number of
results actually emitted. -/
theorem cancellation_counts_and_sites (flag : Nat → Bool)
    (reqs : List ReqBehavior) :
    (processSequential flag reqs 0 (initState reqs.length)).ws.completedRequests =
      (processSequential flag reqs 0
        (initState reqs.length)).emitted.flatten.length ∧
    (processSequential flag reqs 0 (initState reqs.length)).trace.all
      (fun site => site == Site.seqLoop || site == Site.inRequest) = true ∧
    (processParallel flag reqs (initState reqs.length)).ws.completedRequests =
      (processParallel flag reqs (initState reqs.length)).emitted.flatten.length ∧
    (processParallel flag reqs (initState reqs.length)).trace.all
      (fun site => site == Site.parLoop || site == Site.inRequest) = true := by
  have hseq := processSequential_counts_trace flag reqs 0 (initState reqs.length)
  have hpar := processParallelGo_counts_trace flag
    (chunksOf (min reqs.length 3) reqs) (initState reqs.length)
  refine ⟨?_, hseq.2 rfl, ?_, hpar.2 rfl⟩
  · have h := hseq.1
    simp only [initState, List.flatten_nil, List.length_nil, initWS] at h ⊢
    omega
  · have h := hpar.1
    rw [processParallel]
    simp only [initState, List.flatten_nil, List.length_nil, initWS] at h ⊢
    omega

end Bodegon
